import Mathlib

/-!
# Verification of the org-rs cursor/metric layer and parser tables

Shallow embedding of the org-rs sources (`src/rust/cursor/*` and
`src/rust/element/*`) over byte lists (`List Nat`, each element a byte value)
with byte offsets, and proofs about the embedded functions.

Buffers are Rust `&str` values: sequences of bytes indexed by byte offsets.
Where the Rust code indexes out of bounds (a panic), the embedding returns
`none`; theorems carry the offset-validity hypotheses under which the Rust
code is defined.  The regex engine is an external crate: the two concrete
regexes the claims depend on (`org-element--affiliated-re` and
`REGEX_EMPTY_LINE`) are embedded as executable matchers with the crate's
leftmost-first/greedy semantics, and the generic `looking_at` probe takes an
abstract matcher.
-/

namespace OrgRs

/-- `len_utf8_from_first_byte` from `src/rust/cursor/src/lib.rs`:
given the initial byte of a UTF-8 codepoint, the number of bytes of the
codepoint, read off the leading-byte ranges. -/
def len_utf8_from_first_byte (b : Nat) : Nat :=
  if b < 0x80 then 1
  else if b < 0xe0 then 2
  else if b < 0xf0 then 3
  else 4

/-- Rust `str::is_char_boundary`: true at offset 0 and at the buffer length;
otherwise the byte at the offset must not be a UTF-8 continuation byte
(`(b as i8) >= -0x40`, i.e. `b < 0x80 ∨ 0xC0 ≤ b`); false past the end. -/
def is_char_boundary (s : List Nat) (i : Nat) : Bool :=
  if i = 0 then true
  else
    match s[i]? with
    | none => decide (i = s.length)
    | some b => decide (b < 0x80) || decide (0xC0 ≤ b)

/-- `memchr`: index of the first occurrence of byte `b` in `l`
(the `memchr` crate function used by the Line metric). -/
def memchr (b : Nat) : List Nat → Option Nat
  | [] => none
  | x :: xs => if x = b then some 0 else (memchr b xs).map (· + 1)

/-- `memrchr`: index of the last occurrence of byte `b` in `l`. -/
def memrchr (b : Nat) : List Nat → Option Nat
  | [] => none
  | x :: xs =>
    match memrchr b xs with
    | some i => some (i + 1)
    | none => if x = b then some 0 else none

/-- The boundary search of `Char::prev` (`src/rust/cursor/src/metrics.rs`):
from `k` walk down byte by byte until `is_char_boundary` holds (offset 0 is
always a boundary, so the walk terminates). -/
def charPrevSearch (s : List Nat) : Nat → Nat
  | 0 => 0
  | k + 1 => if is_char_boundary s (k + 1) then k + 1 else charPrevSearch s k

namespace CharMetric

/-- `impl Metric for Char`, `is_boundary`: the UTF-8 char-boundary test. -/
def is_boundary (s : List Nat) (offset : Nat) : Bool :=
  is_char_boundary s offset

/-- `Char::prev`: from `offset - 1` walk backward until a char boundary. -/
def prev (s : List Nat) (offset : Nat) : Option Nat :=
  if offset = 0 then none
  else some (charPrevSearch s (offset - 1))

/-- `Char::next`: read the leading byte at `offset` and add its UTF-8 length
(`None` at the buffer end; indexing past the end panics in Rust, `none` here). -/
def next (s : List Nat) (offset : Nat) : Option Nat :=
  if offset = s.length then none
  else
    match s[offset]? with
    | some b => some (offset + len_utf8_from_first_byte b)
    | none => none

end CharMetric

namespace LinesMetric

/-- `impl Metric for Line`, `is_boundary`: offset 0 is not a boundary;
otherwise the byte immediately before the offset must be a newline
(indexing past the end panics in Rust, `false` here). -/
def is_boundary (s : List Nat) (offset : Nat) : Bool :=
  if offset = 0 then false
  else s[offset - 1]? == some 10

/-- `Line::prev`: offset just past the last newline strictly before
`offset - 1` (the `debug_assert!` makes `offset > 0` the caller's
responsibility). -/
def prev (s : List Nat) (offset : Nat) : Option Nat :=
  (memrchr 10 (s.take (offset - 1))).map (· + 1)

/-- `Line::next`: offset just past the first newline at or after `offset`. -/
def next (s : List Nat) (offset : Nat) : Option Nat :=
  (memchr 10 (s.drop offset)).map (fun p => offset + p + 1)

end LinesMetric

namespace BOF

/-- `impl Metric for BOF`. -/
def is_boundary (_s : List Nat) (offset : Nat) : Bool := offset = 0

def prev (s : List Nat) (offset : Nat) : Option Nat :=
  if is_boundary s offset then none else some 0

def next (_s : List Nat) (_offset : Nat) : Option Nat := none

end BOF

namespace EOF

/-- `impl Metric for EOF`. -/
def is_boundary (s : List Nat) (offset : Nat) : Bool := offset = s.length

def prev (_s : List Nat) (_offset : Nat) : Option Nat := none

def next (s : List Nat) (offset : Nat) : Option Nat :=
  if is_boundary s offset then none else some s.length

end EOF

/-- A UTF-8 continuation byte. -/
def isCont (b : Nat) : Bool := decide (0x80 ≤ b) && decide (b < 0xC0)

/-- Decode the UTF-8 codepoint starting at byte offset `p`: the value of
Rust `s[p..].chars().next()` (defined whenever `p` is a char boundary of a
valid buffer; `none` when the bytes at `p` do not form a well-formed
codepoint). -/
def decodeCharAt (s : List Nat) (p : Nat) : Option Nat :=
  match s[p]? with
  | none => none
  | some b =>
    if b < 0x80 then some b
    else if b < 0xC2 then none
    else if b < 0xE0 then
      match s[p + 1]? with
      | some c1 => if isCont c1 then some ((b - 0xC0) * 0x40 + (c1 - 0x80)) else none
      | none => none
    else if b < 0xF0 then
      match s[p + 1]?, s[p + 2]? with
      | some c1, some c2 =>
        if isCont c1 && isCont c2 then
          some ((b - 0xE0) * 0x1000 + (c1 - 0x80) * 0x40 + (c2 - 0x80))
        else none
      | _, _ => none
    else if b < 0xF5 then
      match s[p + 1]?, s[p + 2]?, s[p + 3]? with
      | some c1, some c2, some c3 =>
        if isCont c1 && isCont c2 && isCont c3 then
          some ((b - 0xF0) * 0x40000 + (c1 - 0x80) * 0x1000 +
            (c2 - 0x80) * 0x40 + (c3 - 0x80))
        else none
      | _, _, _ => none
    else none

/-- UTF-8 validation as a byte-at-a-time scan: `pending` is the number of
continuation bytes still expected for the codepoint being read. -/
def validScan : List Nat → Nat → Bool
  | [], pending => decide (pending = 0)
  | b :: rest, 0 =>
    if b < 0x80 then validScan rest 0
    else if b < 0xC2 then false
    else if b < 0xE0 then validScan rest 1
    else if b < 0xF0 then validScan rest 2
    else if b < 0xF5 then validScan rest 3
    else false
  | b :: rest, pending + 1 => isCont b && validScan rest pending

/-- Rust `&str` validity (structural part): the buffer decomposes into
well-formed UTF-8 codepoints.  Every Rust `&str` satisfies this. -/
def validUtf8 (s : List Nat) : Bool := validScan s 0

/-- The cursor of `src/rust/cursor/src/lib.rs`: a borrowed buffer and a byte
offset.  Mutating methods are embedded as state-passing functions. -/
structure Cursor where
  data : List Nat
  pos : Nat
deriving DecidableEq

namespace Cursor

def data_len (c : Cursor) : Nat := c.data.length

/-- `set` (unchecked). -/
def set (c : Cursor) (pos : Nat) : Cursor := { c with pos := pos }

/-- `eof`. -/
def eof (c : Cursor) : Cursor := { c with pos := c.data.length }

/-- `bof`. -/
def bof (c : Cursor) : Cursor := { c with pos := 0 }

/-- `inc`: no bounds check. -/
def inc (c : Cursor) (i : Nat) : Cursor := { c with pos := c.pos + i }

/-- `dec`: clamps at 0 when the decrement is larger than the position. -/
def dec (c : Cursor) (d : Nat) : Cursor :=
  if d > c.pos then { c with pos := 0 } else { c with pos := c.pos - d }

/-- `mnext::<Line>()`: move to the next Line boundary, cursor unchanged on
`None`. -/
def mnext_line (c : Cursor) : Option Nat × Cursor :=
  match LinesMetric.next c.data c.pos with
  | some l => (some l, c.set l)
  | none => (none, c)

/-- `mprev::<Line>()`. -/
def mprev_line (c : Cursor) : Option Nat × Cursor :=
  match LinesMetric.prev c.data c.pos with
  | some o => (some o, c.set o)
  | none => (none, c)

/-- `mnext::<Char>()`. -/
def mnext_char (c : Cursor) : Option Nat × Cursor :=
  match CharMetric.next c.data c.pos with
  | some l => (some l, c.set l)
  | none => (none, c)

/-- `mprev::<Char>()`. -/
def mprev_char (c : Cursor) : Option Nat × Cursor :=
  match CharMetric.prev c.data c.pos with
  | some o => (some o, c.set o)
  | none => (none, c)

/-- `at_or_mprev::<Line>()`: stay put on a boundary, else `mprev`. -/
def at_or_mprev_line (c : Cursor) : Option Nat × Cursor :=
  if LinesMetric.is_boundary c.data c.pos then (some c.pos, c) else mprev_line c

/-- `is_bol` (`src/rust/cursor/src/emacs.rs`): offset 0 or a Line boundary. -/
def is_bol (c : Cursor) : Bool :=
  if c.pos = 0 then true else LinesMetric.is_boundary c.data c.pos

/-- `goto_line_begin`: move to the start of the current line, falling back to
absolute 0 when no newline precedes the cursor. -/
def goto_line_begin (c : Cursor) : Nat × Cursor :=
  let c2 :=
    if c.pos = 0 then c
    else
      match at_or_mprev_line c with
      | (none, c1) => c1.set 0
      | (some _, c1) => c1

  (c2.pos, c2)

/-- `get_lnext::<Char>()` (`src/rust/cursor/src/lexeme.rs`): the codepoint at
the current offset; cursor moves to the next codepoint boundary
(`find_next` = `Char::next`; value read at the pre-move offset). -/
def get_lnext_char (c : Cursor) : Option Nat × Cursor :=
  match CharMetric.next c.data c.pos with
  | none => (none, c)
  | some nxt =>
    match decodeCharAt c.data c.pos with
    | none => (none, c)
    | some ch => (some ch, c.set nxt)

/-- `get_lprev::<Char>()`: the codepoint before the current offset; cursor
moves onto it. -/
def get_lprev_char (c : Cursor) : Option Nat × Cursor :=
  match CharMetric.prev c.data c.pos with
  | none => (none, c)
  | some prv =>
    match decodeCharAt c.data prv with
    | none => (none, c)
    | some ch => (some ch, c.set prv)

end Cursor

/-! ## The emacs-style cursor layer (`src/rust/cursor/src/emacs.rs`) -/

/-- A compiled regex of the `regex` crate, abstracted: `multiline` is the
value of the `is_multiline_regex` source-scanning heuristic on its pattern,
`find` its leftmost-match function on a haystack (start and end offsets,
relative to the haystack). -/
structure RegexModel where
  multiline : Bool
  find : List Nat → Option (Nat × Nat)

/-- The slice end used by `looking_at`/`capturing_at`: end of the current
line (newline excluded) for a single-line regex, buffer end otherwise. -/
def lineEndOffset (s : List Nat) (pos : Nat) : Nat :=
  ((LinesMetric.next s pos).map (fun p => p - 1)).getD s.length

/-- The text slice from pos to line end that a single-line regex probe sees. -/
def lineSlice (s : List Nat) (pos : Nat) : List Nat :=
  (s.take (lineEndOffset s pos)).drop pos

/-- `looking_at(re)`: match `re` against the text from `pos` to the end of
the current line (or buffer end for a multiline regex); takes `&self`, so it
hands the cursor back unchanged. -/
def looking_at (c : Cursor) (re : RegexModel) : Option (Nat × Nat) × Cursor :=
  let e := if !re.multiline then lineEndOffset c.data c.pos else c.data.length
  (re.find ((c.data.take e).drop c.pos), c)

/-- The loop of `line_beginning_position` for `n > 1`: `n - 1` times
`mnext::<Line>`, jumping to `eof` and stopping at the first failure. -/
def lbpForward (c : Cursor) : Nat → Cursor
  | 0 => c
  | k + 1 =>
    match Cursor.mnext_line c with
    | (some _, c1) => lbpForward c1 k
    | (none, c1) => c1.eof

/-- The loop of `line_beginning_position` for `n ≤ 0`: `|n - 1|` times
`mprev::<Line>`, jumping to `bof` and stopping at the first failure. -/
def lbpBackward (c : Cursor) : Nat → Cursor
  | 0 => c
  | k + 1 =>
    match Cursor.mprev_line c with
    | (some _, c1) => lbpBackward c1 k
    | (none, c1) => c1.bof

/-- `line_beginning_position(n)`: a save-excursion query; the saved position
is restored on every path. -/
def line_beginning_position (c : Cursor) (n : Option Int) : Nat × Cursor :=
  let pos := c.pos
  let c1 :=
    match n with
    | none => (Cursor.goto_line_begin c).2
    | some 1 => (Cursor.goto_line_begin c).2
    | some x =>
      if x > 1 then lbpForward c (x - 1).toNat
      else
        let cb := (Cursor.goto_line_begin c).2
        if cb.pos ≠ 0 then lbpBackward cb (x - 1).natAbs else cb
  (c1.pos, c1.set pos)

/-- The loop of `line_end_position` for `n > 1`: `n` times `mnext::<Line>`,
going to `eof` on failure and continuing (the source loop has no break). -/
def lepForward (c : Cursor) : Nat → Cursor
  | 0 => c
  | k + 1 =>
    match Cursor.mnext_line c with
    | (some _, c1) => lepForward c1 k
    | (none, c1) => lepForward c1.eof k

/-- The loop of `line_end_position` for `n ≤ 0`: `|n| + 1` times
`mprev::<Line>`, stopping at the first failure. -/
def lepBackward (c : Cursor) : Nat → Cursor
  | 0 => c
  | k + 1 =>
    match Cursor.mprev_line c with
    | (some _, c1) => lepBackward c1 k
    | (none, c1) => c1

/-- `line_end_position(n)`: a save-excursion query; after the line motion the
result is `mprev::<Char>()` of the reached position (0 when none), and the
saved position is restored on every path. -/
def line_end_position (c : Cursor) (n : Option Int) : Nat × Cursor :=
  let pos := c.pos
  let c1 :=
    match n with
    | none => (Cursor.mnext_line c).2
    | some 1 => (Cursor.mnext_line c).2
    | some x =>
      if x > 1 then lepForward c x.toNat
      else if c.pos ≠ 0 then lepBackward c (x.natAbs + 1) else c
  ((Cursor.mprev_char c1).1.getD 0, c1.set pos)

/-! ## Search (`src/rust/cursor/src/search.rs`) -/

/-- Rust `str::match_indices` for a literal: start indices of successive
non-overlapping occurrences, scanning left to right (an empty needle matches
at every offset).  Fuel-driven; `hay.length + 1` fuel is exact. -/
def matchIndicesAux (needle hay : List Nat) : Nat → Nat → List Nat
  | _, 0 => []
  | i, fuel + 1 =>
    if i ≤ hay.length then
      if (hay.drop i).take needle.length = needle then
        i :: matchIndicesAux needle hay (i + Nat.max needle.length 1) fuel
      else
        matchIndicesAux needle hay (i + 1) fuel
    else []

def match_indices (needle hay : List Nat) : List Nat :=
  matchIndicesAux needle hay 0 (hay.length + 1)

/-- The loop of `search_forward`: walk the match list with a 1-based counter;
a match ending past the bound aborts with `None`; the `count`-th match wins. -/
def searchLoop (pos nlen bound count : Nat) : List Nat → Nat → Option Nat
  | [], _ => none
  | r :: rest, i =>
    if r + pos + nlen > bound then none
    else if count = i then some (r + pos + nlen)
    else searchLoop pos nlen bound count rest (i + 1)

/-- `search_forward(str, bound, count)`: `count`-th (default 1) occurrence of
the literal at or after `pos` whose end is at most `bound` (default buffer
end); on success the cursor is set to the match end. -/
def search_forward (c : Cursor) (needle : List Nat) (bound count : Option Nat) :
    Option Nat × Cursor :=
  let cnt := count.getD 1
  let bnd := bound.getD c.data.length
  let pos := c.pos
  if bnd < pos then (none, c)
  else
    match searchLoop pos needle.length bnd cnt (match_indices needle (c.data.drop pos)) 1 with
    | some e => (some e, c.set e)
    | none => (none, c)

/-- The loop of `skip_chars_forward`: consume chars via `get_lnext::<Char>`;
a char outside the set, or a tripped count check (`count + pos > limit`, with
`pos` the entry offset), steps one char back and stops. -/
def skipFwdLoop (charset : List Nat) (origPos limit : Nat) :
    Cursor → Nat → Nat → Nat × Cursor
  | c, count, 0 => (count, c)
  | c, count, fuel + 1 =>
    match Cursor.get_lnext_char c with
    | (none, c1) => (count, c1)
    | (some ch, c1) =>
      if charset.contains ch = false then (count, (Cursor.mprev_char c1).2)
      else if count + origPos > limit then (count, (Cursor.mprev_char c1).2)
      else skipFwdLoop charset origPos limit c1 (count + 1) fuel

/-- `skip_chars_forward(str, limit)`. -/
def skip_chars_forward (c : Cursor) (charset : List Nat) (limit : Option Nat) :
    Nat × Cursor :=
  let pos := c.pos
  let lim := limit.getD c.data_len
  if pos ≥ lim then (0, c)
  else skipFwdLoop charset pos lim c 0 (c.data.length + 1)

/-- The loop of `skip_chars_backward`: consume chars via `get_lprev::<Char>`;
a char outside the set, or a position below the limit, steps one char forward
and stops. -/
def skipBwdLoop (charset : List Nat) (limit : Nat) :
    Cursor → Nat → Nat → Nat × Cursor
  | c, count, 0 => (count, c)
  | c, count, fuel + 1 =>
    match Cursor.get_lprev_char c with
    | (none, c1) => (count, c1)
    | (some ch, c1) =>
      if charset.contains ch = false then (count, (Cursor.mnext_char c1).2)
      else if c1.pos < limit then (count, (Cursor.mnext_char c1).2)
      else skipBwdLoop charset limit c1 (count + 1) fuel

/-- `skip_chars_backward(str, limit)`. -/
def skip_chars_backward (c : Cursor) (charset : List Nat) (limit : Option Nat) :
    Nat × Cursor :=
  let lim := limit.getD 0
  if c.pos ≤ lim then (0, c)
  else skipBwdLoop charset lim c 0 (c.data.length + 1)

/-- Byte position after `j` forward char steps from `pos` (the offsets the
`skip_chars_forward` loop visits). -/
def advanceF (s : List Nat) (pos : Nat) : Nat → Nat
  | 0 => pos
  | j + 1 =>
    let p := advanceF s pos j
    p + len_utf8_from_first_byte (s.getD p 0)

/-- The exact stopping condition of the `skip_chars_forward` loop at step
`j`: no decodable char at the reached offset, a char outside the set, or the
count check `count + pos > limit` tripping. -/
def stopF (s charset : List Nat) (origPos limit j : Nat) : Bool :=
  match decodeCharAt s (advanceF s origPos j) with
  | none => true
  | some ch => !(charset.contains ch) || decide (j + origPos > limit)

/-- Byte position after `j` backward char steps from `pos`. -/
def retreatB (s : List Nat) (pos : Nat) : Nat → Nat
  | 0 => pos
  | j + 1 => (CharMetric.prev s (retreatB s pos j)).getD 0

/-- The exact stopping condition of the `skip_chars_backward` loop at step
`j`: no previous char (offset 0), no decodable char there, a char outside
the set, or the previous char starting below the limit. -/
def stopB (s charset : List Nat) (limit pos j : Nat) : Bool :=
  match CharMetric.prev s (retreatB s pos j) with
  | none => true
  | some prv =>
    match decodeCharAt s prv with
    | none => true
    | some ch => !(charset.contains ch) || decide (prv < limit)

/-! ## Syntax data model (`src/rust/element/src/data.rs`) -/

/-- The discriminants of the `Syntax` tagged union, in source order
(`EnumDiscriminants` derives this as `SyntaxT`). -/
inductive SyntaxT where
  | OrgData
  | BabelCall
  | CenterBlock
  | Clock
  | Comment
  | CommentBlock
  | DiarySexp
  | Drawer
  | DynamicBlock
  | ExampleBlock
  | ExportBlock
  | FixedWidth
  | FootnoteDefinition
  | Headline
  | HorizontalRule
  | InlineTask
  | Item
  | Keyword
  | LatexEnvironment
  | NodeProperty
  | Paragraph
  | PlainList
  | Planning
  | PropertyDrawer
  | QuoteBlock
  | Section
  | SpecialBlock
  | SrcBlock
  | Table
  | TableRow
  | VerseBlock
  | Bold
  | Code
  | Entity
  | ExportSnippet
  | FootnoteReference
  | InlineBabelCall
  | InlineSrcBlock
  | Italic
  | LineBreak
  | LatexFragment
  | Link
  | Macro
  | RadioTarget
  | StatisticsCookie
  | StrikeThrough
  | Subscript
  | Superscript
  | TableCell
  | Target
  | Timestamp
  | Underline
  | Verbatim
  | PlainText
deriving DecidableEq, Fintype

/-- `is_object`: the classification predicate over the discriminant. -/
def SyntaxT.is_object : SyntaxT → Bool
  | .Bold | .Code | .Entity | .ExportSnippet | .FootnoteReference
  | .InlineBabelCall | .InlineSrcBlock | .Italic | .LineBreak | .LatexFragment
  | .Link | .Macro | .RadioTarget | .StatisticsCookie | .StrikeThrough
  | .Subscript | .Superscript | .TableCell | .Target | .Timestamp | .Underline
  | .Verbatim | .PlainText => true
  | _ => false

/-- `(standard-set (remq 'table-cell org-element-all-objects))`: the inner
helper of `can_contain`. -/
def is_from_standard_set (that : SyntaxT) : Bool :=
  match that with
  | .TableCell => false
  | x => x.is_object

/-- `(standard-set-no-line-break (remq 'line-break standard-set))`. -/
def is_from_standard_set_no_line_break (that : SyntaxT) : Bool :=
  match that with
  | .LineBreak => false
  | x => is_from_standard_set x

/-- `can_contain` (`org-element-object-restrictions`): the fixed containment
matrix over discriminant pairs. -/
def SyntaxT.can_contain (self that : SyntaxT) : Bool :=
  match self with
  | .Bold | .Italic | .FootnoteReference | .Paragraph | .StrikeThrough
  | .Subscript | .Superscript | .Underline | .VerseBlock =>
    is_from_standard_set that
  | .Headline | .InlineTask | .Item =>
    is_from_standard_set_no_line_break that
  | .Keyword =>
    match that with
    | .FootnoteReference => false
    | x => is_from_standard_set x
  | .Link =>
    match that with
    | .Bold | .Code | .Entity | .ExportSnippet | .InlineBabelCall
    | .InlineSrcBlock | .Italic | .LatexFragment | .Macro | .StatisticsCookie
    | .StrikeThrough | .Subscript | .Superscript | .Underline | .Verbatim => true
    | _ => false
  | .RadioTarget =>
    match that with
    | .Bold | .Code | .Entity | .Italic | .LatexFragment | .StrikeThrough
    | .Subscript | .Superscript | .Underline => true
    | _ => false
  | .TableCell =>
    match that with
    | .Bold | .Code | .Entity | .ExportSnippet | .FootnoteReference | .Italic
    | .LatexFragment | .Link | .Macro | .RadioTarget | .StrikeThrough
    | .Subscript | .Superscript | .Target | .Timestamp | .Underline
    | .Verbatim => true
    | _ => false
  | .TableRow =>
    match that with
    | .TableCell => true
    | _ => false
  | _ => false

/-- The parser's modes (`src/rust/element/src/parser.rs`). -/
inductive ParserMode where
  | FirstSection
  | Section
  | Planning
  | Item
  | NodeProperty
  | TableRow
  | PropertyDrawer
deriving DecidableEq, Fintype

/-- `next_mode` (`org-element--next-mode`): the pure mode-transition lookup
over the discriminant, keyed by whether the node just entered is a parent or
a finished sibling. -/
def next_mode (st : SyntaxT) (is_parent : Bool) : Option ParserMode :=
  if is_parent then
    match st with
    | .Headline => some .Section
    | .InlineTask => some .Planning
    | .PlainList => some .Item
    | .PropertyDrawer => some .NodeProperty
    | .Section => some .Planning
    | .Table => some .TableRow
    | _ => none
  else
    match st with
    | .Item => some .Item
    | .NodeProperty => some .NodeProperty
    | .Planning => some .PropertyDrawer
    | .TableRow => some .TableRow
    | _ => none

/-! ## Affiliated keywords (`src/rust/element/src/affiliated.rs`) -/

/-- ASCII string literal to its byte list (all concrete inputs are ASCII). -/
def OrgStr (s : String) : List Nat := s.data.map Char.toNat

/-- Space or tab, the regex class `[ \t]`. -/
def isSpTab (b : Nat) : Bool := b == 32 || b == 9

/-- Length of the maximal leading run satisfying `p`. -/
def countRun (p : Nat → Bool) : List Nat → Nat
  | [] => 0
  | b :: rest => if p b then countRun p rest + 1 else 0

/-- ASCII upper-casing of a byte (`to_ascii_uppercase`; also how the
case-insensitive `(?i)` flag compares ASCII letters). -/
def toUpperByte (b : Nat) : Nat := if 97 ≤ b && b ≤ 122 then b - 32 else b

/-- Case-insensitive match of the uppercase ASCII literal `lit` at offset `k`
of the probed line. -/
def matchCI (ln : List Nat) (k : Nat) (lit : List Nat) : Bool :=
  ((ln.drop k).take lit.length).map toUpperByte == lit

/-- Byte of the regex class `[-_A-Za-z0-9]` (the `ATTR_` backend name). -/
def isAttrByte (b : Nat) : Bool :=
  b == 45 || b == 95 || (decide (65 ≤ b) && decide (b ≤ 90)) ||
    (decide (97 ≤ b) && decide (b ≤ 122)) || (decide (48 ≤ b) && decide (b ≤ 57))

/-- Greatest `j ≥ start` with `]` at `j` and `:` at `j + 1` — where the
greedy `.*` of the `SECONDARY` group, forced to backtrack into `\]:`, ends. -/
def findLastRBColonAux (ln : List Nat) (start : Nat) : Nat → Option Nat
  | 0 => none
  | j + 1 =>
    if decide (start ≤ j) && ln[j]? == some 93 && ln[j + 1]? == some 58 then some j
    else findLastRBColonAux ln start j

def findLastRBColon (ln : List Nat) (start : Nat) : Option Nat :=
  findLastRBColonAux ln start ln.length

/-- The named key groups of `REGEX_AFFILIATED` (`SECONDARY` is carried
separately). -/
inductive AffKeyT where
  | CAPTION
  | RESULTS
  | HEADER
  | PLOT
  | NAME
  | ATTR
deriving DecidableEq

/-- What the affiliated-keyword collector reads off a regex match: the key
group, its end offset in the probed slice, the `SECONDARY` capture's
(start, end) when present, the `ATTR` group's text. -/
structure AffMatch where
  key : AffKeyT
  keyEnd : Nat
  secondary : Option (Nat × Nat)
  attrText : List Nat
deriving DecidableEq

/-- `(?:\[(?P<SECONDARY>.*)\])?:` after a dual key ending at `e`: the greedy
optional bracket group is tried first (its `.*` taking the rightmost `]:`)
and on failure the plain `:` must follow the key. -/
def dualTail (ln : List Nat) (e : Nat) : Option (Option (Nat × Nat)) :=
  match (if ln[e]? == some 91 then findLastRBColon ln (e + 1) else none) with
  | some j => some (some (e + 1, j))
  | none => if ln[e]? == some 58 then some none else none

/-- `capturing_at(REGEX_AFFILIATED)` on the current-line slice: the
alternation of `org-element--affiliated-re`, tried in regex order with
leftmost-first/greedy semantics — `^[ \t]*#\+` then
`(CAPTION|RESULTS?)(\[SECONDARY\])?` / `HEADERS?` / `PLOT` /
`DATA|LABEL|NAME|RESNAME|SOURCE|SRCNAME|TBLNAME` / `ATTR_[-_A-Za-z0-9]+`,
then `:`, case-insensitively. -/
def affMatchLine (ln : List Nat) : Option AffMatch :=
  let i := countRun isSpTab ln
  if ln[i]? == some 35 && ln[i + 1]? == some 43 then
    let k := i + 2
    match (if matchCI ln k (OrgStr "CAPTION") then dualTail ln (k + 7) else none) with
    | some sec => some ⟨.CAPTION, k + 7, sec, []⟩
    | none =>
    match (if matchCI ln k (OrgStr "RESULTS") then dualTail ln (k + 7) else none) with
    | some sec => some ⟨.RESULTS, k + 7, sec, []⟩
    | none =>
    match (if matchCI ln k (OrgStr "RESULT") then dualTail ln (k + 6) else none) with
    | some sec => some ⟨.RESULTS, k + 6, sec, []⟩
    | none =>
    if matchCI ln k (OrgStr "HEADERS") && ln[k + 7]? == some 58 then
      some ⟨.HEADER, k + 7, none, []⟩
    else if matchCI ln k (OrgStr "HEADER") && ln[k + 6]? == some 58 then
      some ⟨.HEADER, k + 6, none, []⟩
    else if matchCI ln k (OrgStr "PLOT") && ln[k + 4]? == some 58 then
      some ⟨.PLOT, k + 4, none, []⟩
    else if matchCI ln k (OrgStr "DATA") && ln[k + 4]? == some 58 then
      some ⟨.NAME, k + 4, none, []⟩
    else if matchCI ln k (OrgStr "LABEL") && ln[k + 5]? == some 58 then
      some ⟨.NAME, k + 5, none, []⟩
    else if matchCI ln k (OrgStr "NAME") && ln[k + 4]? == some 58 then
      some ⟨.NAME, k + 4, none, []⟩
    else if matchCI ln k (OrgStr "RESNAME") && ln[k + 7]? == some 58 then
      some ⟨.NAME, k + 7, none, []⟩
    else if matchCI ln k (OrgStr "SOURCE") && ln[k + 6]? == some 58 then
      some ⟨.NAME, k + 6, none, []⟩
    else if matchCI ln k (OrgStr "SRCNAME") && ln[k + 7]? == some 58 then
      some ⟨.NAME, k + 7, none, []⟩
    else if matchCI ln k (OrgStr "TBLNAME") && ln[k + 7]? == some 58 then
      some ⟨.NAME, k + 7, none, []⟩
    else if matchCI ln k (OrgStr "ATTR_") then
      let run := countRun isAttrByte (ln.drop (k + 5))
      if decide (0 < run) && ln[k + 5 + run]? == some 58 then
        some ⟨.ATTR, k + 5 + run, none, (ln.drop k).take (5 + run)⟩
      else none
    else none
  else none

/-- `looking_at(REGEX_EMPTY_LINE)` (`^[ \t]*$`, not multiline by the
heuristic): the rest of the current line is blank. -/
def is_empty_line (s : List Nat) (pos : Nat) : Bool :=
  (lineSlice s pos).all isSpTab

/-- `DualVal`: a value with an optional secondary value (`CAPTION[GIT]:`). -/
structure DualVal where
  value : List Nat
  secondary : Option (List Nat)
deriving DecidableEq

/-- `AffiliatedData` (the `StringOrObject::Raw` payloads are the raw byte
strings; `attr` is the `HashMap` as an insertion-ordered association list). -/
structure AffiliatedData where
  caption : List DualVal
  header : List (List Nat)
  name : Option (List Nat)
  plot : Option (List Nat)
  results : Option DualVal
  attr : List (List Nat × List (List Nat))
deriving DecidableEq

def AffiliatedData.empty : AffiliatedData := ⟨[], [], none, none, none, []⟩

def attrLookup (m : List (List Nat × List (List Nat))) (key : List Nat) :
    Option (List (List Nat)) :=
  match m with
  | [] => none
  | (k, v) :: rest => if k = key then some v else attrLookup rest key

/-- The `attr` update: push onto an existing backend's vector, else insert a
fresh singleton. -/
def attrInsert (m : List (List Nat × List (List Nat))) (key : List Nat)
    (v : List Nat) : List (List Nat × List (List Nat)) :=
  match m with
  | [] => [(key, [v])]
  | (k, vs) :: rest =>
    if k = key then (k, vs ++ [v]) :: rest else (k, vs) :: attrInsert rest key v

/-- ASCII whitespace byte (`str::trim` on the ASCII inputs at hand). -/
def isAsciiWs (b : Nat) : Bool := b == 32 || (decide (9 ≤ b) && decide (b ≤ 13))

def trimBytes (l : List Nat) : List Nat :=
  ((l.dropWhile isAsciiWs).reverse.dropWhile isAsciiWs).reverse

/-- One iteration body of `collect_affiliated_keywords`: compute
`value_begin` from the matched group ends (`key end + 1`, or
`SECONDARY end + 2`), `value_end` from `line_end_position(None)`, trim, and
record the keyword per its group. -/
def applyKeyword (data ln : List Nat) (pos : Nat) (m : AffMatch) (lep : Nat)
    (out : AffiliatedData) : AffiliatedData :=
  let value_begin :=
    match m.secondary with
    | none => pos + m.keyEnd + 1
    | some se => pos + se.2 + 2
  let value := trimBytes ((data.take lep).drop value_begin)
  let secondary_value := m.secondary.map (fun se => trimBytes ((ln.take se.2).drop se.1))
  match m.key with
  | .CAPTION => { out with caption := out.caption ++ [⟨value, secondary_value⟩] }
  | .RESULTS => { out with results := some ⟨value, secondary_value⟩ }
  | .NAME => { out with name := some value }
  | .PLOT => { out with plot := some value }
  | .HEADER => { out with header := out.header ++ [value] }
  | .ATTR => { out with attr := attrInsert out.attr (m.attrText.map toUpperByte) value }

/-- Modelled from the spec: `goto_next_line` is called by
`collect_affiliated_keywords` but not defined in the repository's staged
sources (only call sites appear).  Per spec §4.3 the collector, after
accumulating a keyword line, advances to the next line; the cursor moves to
the start of the following line, or to buffer end when no newline remains. -/
def goto_next_line (c : Cursor) : Cursor :=
  match LinesMetric.next c.data c.pos with
  | some p => c.set p
  | none => c.eof

/-- The keyword loop of `collect_affiliated_keywords`: while the cursor is
below `limit` and the current line matches `REGEX_AFFILIATED`, accumulate
and advance to the next line. -/
def collectLoop (data : List Nat) (limit : Nat) :
    Nat → Nat → AffiliatedData → Nat × AffiliatedData
  | 0, pos, out => (pos, out)
  | fuel + 1, pos, out =>
    match affMatchLine (lineSlice data pos) with
    | none => (pos, out)
    | some m =>
      if pos ≥ limit then (pos, out)
      else
        let lep := (line_end_position ⟨data, pos⟩ none).1
        let out1 := applyKeyword data (lineSlice data pos) pos m lep out
        collectLoop data limit fuel (goto_next_line ⟨data, pos⟩).pos out1

/-- `collect_affiliated_keywords(limit)`: result is
`((origin, collected data), final cursor position)`.  Not at
beginning-of-line → immediate `(pos, None)`; after the loop, a blank line
under the cursor orphans the keywords → rewind to origin and `(origin,
None)`. -/
def collect_affiliated_keywords (data : List Nat) (pos limit : Nat) :
    (Nat × Option AffiliatedData) × Nat :=
  if !(Cursor.is_bol ⟨data, pos⟩) then ((pos, none), pos)
  else
    let origin := pos
    let res := collectLoop data limit (data.length + 1) pos AffiliatedData.empty
    if is_empty_line data res.1 then ((origin, none), origin)
    else ((origin, some res.2), res.1)

/-!
## Theorems

First the supporting lemmas about the byte-level helpers, then one theorem
per claim (with witnesses and counterexamples where required).
-/

theorem len_utf8_pos (b : Nat) : 0 < len_utf8_from_first_byte b := by
  unfold len_utf8_from_first_byte
  split
  · omega
  · split
    · omega
    · split <;> omega

theorem is_char_boundary_zero (s : List Nat) : is_char_boundary s 0 = true := rfl

theorem is_char_boundary_length (s : List Nat) :
    is_char_boundary s s.length = true := by
  unfold is_char_boundary
  split
  · rfl
  · rw [List.getElem?_eq_none (Nat.le_refl _)]
    simp

theorem mem_of_idx {α : Type} {l : List α} {n : Nat} {a : α} (h : l[n]? = some a) :
    a ∈ l := by
  induction l generalizing n with
  | nil => simp at h
  | cons x xs ih =>
    cases n with
    | zero =>
      simp at h
      exact h ▸ List.mem_cons_self x xs
    | succ m =>
      rw [List.getElem?_cons_succ] at h
      exact List.mem_cons_of_mem x (ih h)

theorem memchr_none_iff (b : Nat) (l : List Nat) :
    memchr b l = none ↔ ∀ x ∈ l, x ≠ b := by
  induction l with
  | nil => simp [memchr]
  | cons x xs ih =>
    by_cases hx : x = b
    · subst hx
      simp [memchr]
    · simp [memchr, hx, ih]

theorem memchr_some (b : Nat) (l : List Nat) (i : Nat) (h : memchr b l = some i) :
    i < l.length ∧ l[i]? = some b ∧ ∀ j, j < i → l[j]? ≠ some b := by
  induction l generalizing i with
  | nil => simp [memchr] at h
  | cons x xs ih =>
    by_cases hx : x = b
    · simp only [memchr, if_pos hx] at h
      injection h with h
      subst h
      refine ⟨by simp, by simp [hx], ?_⟩
      intro j hj
      exact absurd hj (Nat.not_lt_zero j)
    · simp only [memchr, if_neg hx] at h
      cases hmx : memchr b xs with
      | none => rw [hmx] at h; cases h
      | some i' =>
        rw [hmx] at h
        simp at h
        subst h
        obtain ⟨h1, h2, h3⟩ := ih i' hmx
        refine ⟨by simpa using h1, by simpa using h2, ?_⟩
        intro j hj
        cases j with
        | zero => simp [hx]
        | succ j' =>
          rw [List.getElem?_cons_succ]
          exact h3 j' (by omega)

theorem memrchr_none_iff (b : Nat) (l : List Nat) :
    memrchr b l = none ↔ ∀ x ∈ l, x ≠ b := by
  induction l with
  | nil => simp [memrchr]
  | cons x xs ih =>
    cases hr : memrchr b xs with
    | some i =>
      simp only [memrchr, hr]
      constructor
      · intro h; cases h
      · intro h
        have h2 := ih.mpr fun y hy => h y (List.mem_cons_of_mem x hy)
        rw [h2] at hr
        cases hr
    | none =>
      by_cases hx : x = b
      · subst hx
        simp [memrchr, hr]
      · have hall := ih.mp hr
        simp only [memrchr, hr, if_neg hx]
        simp only [List.mem_cons]
        constructor
        · intro _ y hy
          rcases hy with hy | hy
          · exact hy ▸ hx
          · exact hall y hy
        · intro _; trivial

theorem memrchr_some (b : Nat) (l : List Nat) (i : Nat) (h : memrchr b l = some i) :
    i < l.length ∧ l[i]? = some b ∧ ∀ j, i < j → j < l.length → l[j]? ≠ some b := by
  induction l generalizing i with
  | nil => simp [memrchr] at h
  | cons x xs ih =>
    simp only [memrchr] at h
    cases hr : memrchr b xs with
    | some i' =>
      rw [hr] at h
      injection h with h
      subst h
      obtain ⟨h1, h2, h3⟩ := ih i' hr
      refine ⟨by simpa using h1, by simpa using h2, ?_⟩
      intro j hj hjl
      cases j with
      | zero => omega
      | succ j' =>
        rw [List.getElem?_cons_succ]
        exact h3 j' (by omega) (by simpa using hjl)
    | none =>
      rw [hr] at h
      by_cases hx : x = b
      · rw [if_pos hx] at h
        injection h with h
        subst h
        refine ⟨by simp, by simp [hx], ?_⟩
        intro j hj hjl
        cases j with
        | zero => omega
        | succ j' =>
          rw [List.getElem?_cons_succ]
          intro hc
          exact (memrchr_none_iff b xs).mp hr _ (mem_of_idx hc) rfl
      · rw [if_neg hx] at h
        cases h

theorem charPrevSearch_le (s : List Nat) (k : Nat) : charPrevSearch s k ≤ k := by
  induction k with
  | zero => simp [charPrevSearch]
  | succ k ih =>
    unfold charPrevSearch
    split
    · omega
    · omega

theorem charPrevSearch_boundary (s : List Nat) (k : Nat) :
    is_char_boundary s (charPrevSearch s k) = true := by
  induction k with
  | zero => simp [charPrevSearch, is_char_boundary_zero]
  | succ k ih =>
    unfold charPrevSearch
    split
    · assumption
    · assumption

/-- If `p` is a boundary and every offset in `(p, k]` is not, the search from
`k` lands exactly on `p`. -/
theorem charPrevSearch_eq (s : List Nat) (p k : Nat) (hpk : p ≤ k)
    (hp : is_char_boundary s p = true)
    (hmid : ∀ q, p < q → q ≤ k → is_char_boundary s q = false) :
    charPrevSearch s k = p := by
  induction k with
  | zero =>
    interval_cases p
    simp [charPrevSearch]
  | succ k ih =>
    unfold charPrevSearch
    by_cases hb : is_char_boundary s (k + 1) = true
    · rw [hb]
      simp only [if_true]
      rcases Nat.lt_or_ge p (k + 1) with h | h
      · exact absurd hb (by simp [hmid (k + 1) h (Nat.le_refl _)])
      · omega
    · rw [Bool.not_eq_true] at hb
      rw [hb]
      simp only [Bool.false_eq_true, if_false]
      rcases Nat.lt_or_ge p (k + 1) with h | h
      · exact ih (by omega) (fun q hq hqk => hmid q hq (by omega))
      · exfalso
        have hpk1 : p = k + 1 := by omega
        rw [hpk1] at hp
        rw [hp] at hb
        cases hb

theorem charPrevSearch_self (s : List Nat) (k : Nat)
    (hk : is_char_boundary s k = true) : charPrevSearch s k = k := by
  cases k with
  | zero => rfl
  | succ k' =>
    unfold charPrevSearch
    rw [hk]
    simp

theorem take_getElem?_eq (s : List Nat) (n j : Nat) (hj : j < n) :
    (s.take n)[j]? = s[j]? := by
  rcases Nat.lt_or_ge j s.length with hl | hl
  · rw [List.getElem?_eq_getElem (by simp; omega), List.getElem?_eq_getElem hl]
    simp [List.getElem_take]
  · rw [List.getElem?_eq_none (by simp; omega), List.getElem?_eq_none hl]

theorem drop_getElem?_eq (s : List Nat) (i j : Nat) : (s.drop i)[j]? = s[i + j]? := by
  induction s generalizing i j with
  | nil => simp
  | cons x xs ih =>
    cases i with
    | zero => simp
    | succ i' =>
      rw [List.drop_succ_cons, ih i' j]
      have : i' + 1 + j = (i' + j) + 1 := by omega
      rw [this, List.getElem?_cons_succ]

/-- **C2.** For every buffer and every in-range offset, the codepoint, line,
BOF and EOF metrics strictly advance on `next` and strictly retreat on `prev`
(they never return the queried offset), and at the buffer edge where no
further boundary exists they return `none` (for the line metric, exactly when
no newline remains in the scanned region).  `Line::prev` is stated at `p + 1`,
its caller contract (`debug_assert!(offset > 0)`) requiring a positive
offset. -/
theorem metrics_strict_advance (s : List Nat) (p : Nat) (hp : p ≤ s.length) :
    ((CharMetric.next s p).all fun q => decide (p < q)) = true ∧
    ((CharMetric.prev s p).all fun q => decide (q < p)) = true ∧
    ((LinesMetric.next s p).all fun q => decide (p < q)) = true ∧
    ((LinesMetric.prev s (p + 1)).all fun q => decide (q < p + 1)) = true ∧
    BOF.next s p = none ∧
    ((BOF.prev s p).all fun q => decide (q < p)) = true ∧
    ((EOF.next s p).all fun q => decide (p < q)) = true ∧
    EOF.prev s p = none ∧
    CharMetric.next s s.length = none ∧
    CharMetric.prev s 0 = none ∧
    BOF.prev s 0 = none ∧
    EOF.next s s.length = none ∧
    ((LinesMetric.next s p).isNone = (s.drop p).all fun b => !(b == 10)) ∧
    ((LinesMetric.prev s (p + 1)).isNone = (s.take p).all fun b => !(b == 10)) := by
  refine ⟨?_, ?_, ?_, ?_, rfl, ?_, ?_, rfl, ?_, rfl, rfl, ?_, ?_, ?_⟩
  · unfold CharMetric.next
    by_cases h : p = s.length
    · simp [h]
    · rw [if_neg h]
      cases hb : s[p]? with
      | none => rfl
      | some b => simp [Option.all, len_utf8_pos b]
  · unfold CharMetric.prev
    cases p with
    | zero => rfl
    | succ k =>
      simp [Option.all]
      exact Nat.lt_succ_of_le (charPrevSearch_le s k)
  · unfold LinesMetric.next
    cases hm : memchr 10 (s.drop p) with
    | none => rfl
    | some d =>
      simp [Option.all]
      omega
  · unfold LinesMetric.prev
    cases hm : memrchr 10 (s.take (p + 1 - 1)) with
    | none => rfl
    | some i =>
      obtain ⟨h1, _, _⟩ := memrchr_some _ _ _ hm
      simp only [List.length_take] at h1
      simp [Option.all]
      omega
  · unfold BOF.prev BOF.is_boundary
    by_cases h : p = 0
    · simp [h]
    · simp [h, Option.all]
      omega
  · unfold EOF.next EOF.is_boundary
    by_cases h : p = s.length
    · simp [h]
    · simp [h, Option.all]
      omega
  · simp [CharMetric.next]
  · simp [EOF.next, EOF.is_boundary]
  · unfold LinesMetric.next
    cases hm : memchr 10 (s.drop p) with
    | none =>
      simp only [Option.map_none', Option.isNone_none]
      symm
      rw [List.all_eq_true]
      intro x hx
      have := (memchr_none_iff 10 (s.drop p)).mp hm x hx
      simpa using this
    | some d =>
      simp only [Option.map_some', Option.isNone_some]
      symm
      obtain ⟨h1, h2, _⟩ := memchr_some _ _ _ hm
      rw [List.all_eq_false]
      exact ⟨10, mem_of_idx h2, by simp⟩
  · unfold LinesMetric.prev
    have hpp : p + 1 - 1 = p := rfl
    rw [hpp]
    cases hm : memrchr 10 (s.take p) with
    | none =>
      simp only [Option.map_none', Option.isNone_none]
      symm
      rw [List.all_eq_true]
      intro x hx
      have := (memrchr_none_iff 10 (s.take p)).mp hm x hx
      simpa using this
    | some i =>
      simp only [Option.map_some', Option.isNone_some]
      symm
      obtain ⟨h1, h2, _⟩ := memrchr_some _ _ _ hm
      rw [List.all_eq_false]
      exact ⟨10, mem_of_idx h2, by simp⟩

/-- Witness for C2 at the concrete buffer `"a\nb"` and offset 1. -/
theorem metrics_strict_advance_witness :
    ((CharMetric.next [97, 10, 98] 1).all fun q => decide (1 < q)) = true ∧
    ((CharMetric.prev [97, 10, 98] 1).all fun q => decide (q < 1)) = true ∧
    ((LinesMetric.next [97, 10, 98] 1).all fun q => decide (1 < q)) = true ∧
    ((LinesMetric.prev [97, 10, 98] 2).all fun q => decide (q < 2)) = true ∧
    BOF.next [97, 10, 98] 1 = none ∧
    ((BOF.prev [97, 10, 98] 1).all fun q => decide (q < 1)) = true ∧
    ((EOF.next [97, 10, 98] 1).all fun q => decide (1 < q)) = true ∧
    EOF.prev [97, 10, 98] 1 = none ∧
    CharMetric.next [97, 10, 98] ([97, 10, 98] : List Nat).length = none ∧
    CharMetric.prev [97, 10, 98] 0 = none ∧
    BOF.prev [97, 10, 98] 0 = none ∧
    EOF.next [97, 10, 98] ([97, 10, 98] : List Nat).length = none ∧
    ((LinesMetric.next [97, 10, 98] 1).isNone
      = (([97, 10, 98] : List Nat).drop 1).all fun b => !(b == 10)) ∧
    ((LinesMetric.prev [97, 10, 98] 2).isNone
      = (([97, 10, 98] : List Nat).take 1).all fun b => !(b == 10)) :=
  metrics_strict_advance [97, 10, 98] 1 (by decide)

/-- **C3.** When the byte before offset `p` is a newline (so `p` is a
line-metric boundary and the start of the current line), `Line::prev` never
returns `p` itself: any result is the offset one past the nearest newline
strictly before `p - 1` (the start of the previous line), and the result is
`none` exactly when no such newline exists. -/
theorem line_prev_skips_current_line (s : List Nat) (p : Nat)
    (hp : 0 < p) (hb : s[p - 1]? = some 10) :
    LinesMetric.prev s p ≠ some p ∧
    (∀ q, LinesMetric.prev s p = some q →
      q < p ∧ 0 < q ∧ s[q - 1]? = some 10 ∧
      ∀ j, q ≤ j → j < p - 1 → s[j]? ≠ some 10) ∧
    (LinesMetric.prev s p = none ↔ ∀ j, j < p - 1 → s[j]? ≠ some 10) := by
  have hsome : ∀ q, LinesMetric.prev s p = some q →
      q < p ∧ 0 < q ∧ s[q - 1]? = some 10 ∧
      ∀ j, q ≤ j → j < p - 1 → s[j]? ≠ some 10 := by
    intro q h
    unfold LinesMetric.prev at h
    cases hm : memrchr 10 (s.take (p - 1)) with
    | none => rw [hm] at h; cases h
    | some i =>
      rw [hm] at h
      simp at h
      obtain ⟨h1, h2, h3⟩ := memrchr_some _ _ _ hm
      simp only [List.length_take] at h1
      have hip : i < p - 1 := by omega
      subst h
      refine ⟨by omega, by omega, ?_, ?_⟩
      · have heq : (s.take (p - 1))[i]? = s[i]? := take_getElem?_eq s (p - 1) i hip
        rw [heq] at h2
        simpa using h2
      · intro j hj hjp
        rcases Nat.lt_or_ge j s.length with hl | hl
        · have heq : (s.take (p - 1))[j]? = s[j]? := take_getElem?_eq s (p - 1) j hjp
          rw [← heq]
          exact h3 j (by omega) (by simp [List.length_take]; omega)
        · rw [List.getElem?_eq_none hl]
          simp
  refine ⟨?_, hsome, ?_⟩
  · intro h
    exact absurd (hsome p h).1 (lt_irrefl p)
  · unfold LinesMetric.prev
    constructor
    · intro h j hjp hc
      have hm : memrchr 10 (s.take (p - 1)) = none := by
        cases hm : memrchr 10 (s.take (p - 1)) with
        | none => rfl
        | some i => rw [hm] at h; cases h
      have hjl : j < s.length := by
        by_contra hc2
        rw [List.getElem?_eq_none (by omega)] at hc
        cases hc
      have hmem : (10 : Nat) ∈ s.take (p - 1) := by
        apply mem_of_idx (n := j)
        rw [take_getElem?_eq s (p - 1) j hjp]
        exact hc
      exact (memrchr_none_iff 10 (s.take (p - 1))).mp hm 10 hmem rfl
    · intro h
      have hm : memrchr 10 (s.take (p - 1)) = none := by
        rw [memrchr_none_iff]
        intro x hx hxb
        subst hxb
        obtain ⟨j, hjl, hj⟩ := List.getElem_of_mem hx
        have hjp : j < p - 1 := by
          have := hjl
          simp [List.length_take] at this
          omega
        apply h j hjp
        rw [← take_getElem?_eq s (p - 1) j hjp]
        rw [List.getElem?_eq_getElem hjl]
        rw [hj]
      rw [hm]
      rfl

/-- Witness for C3 at the buffer `"a\nb\nc"` and offset 4. -/
theorem line_prev_skips_current_line_witness :
    LinesMetric.prev [97, 10, 98, 10, 99] 4 ≠ some 4 ∧
    (∀ q, LinesMetric.prev [97, 10, 98, 10, 99] 4 = some q →
      q < 4 ∧ 0 < q ∧ [97, 10, 98, 10, 99][q - 1]? = some 10 ∧
      ∀ j, q ≤ j → j < 4 - 1 → [97, 10, 98, 10, 99][j]? ≠ some 10) ∧
    (LinesMetric.prev [97, 10, 98, 10, 99] 4 = none ↔
      ∀ j, j < 4 - 1 → [97, 10, 98, 10, 99][j]? ≠ some 10) :=
  line_prev_skips_current_line [97, 10, 98, 10, 99] 4 (by decide) (by decide)

/-- **C1.** The containment matrix: `can_contain` is anti-reflexive for
`Link` and `RadioTarget` (neither may directly contain itself, nor each
other), yet `Bold.can_contain(Link)` is true; and `Keyword` may contain
exactly the standard object set (all objects except `TableCell`) minus
`FootnoteReference`. -/
theorem can_contain_matrix_facts :
    SyntaxT.can_contain .Link .Link = false ∧
    SyntaxT.can_contain .Link .RadioTarget = false ∧
    SyntaxT.can_contain .RadioTarget .RadioTarget = false ∧
    SyntaxT.can_contain .RadioTarget .Link = false ∧
    SyntaxT.can_contain .Bold .Link = true ∧
    (∀ x : SyntaxT, SyntaxT.can_contain .Keyword x = true ↔
      (x.is_object = true ∧ x ≠ .TableCell ∧ x ≠ .FootnoteReference)) := by
  refine ⟨rfl, rfl, rfl, rfl, rfl, ?_⟩
  decide

/-- **C5.** `next_mode` is the pure lookup table: with `is_parent = true` it
maps exactly Headline→Section, InlineTask→Planning, PlainList→Item,
PropertyDrawer→NodeProperty, Section→Planning, Table→TableRow (every other
kind to no mode); with `is_parent = false` exactly Item→Item,
NodeProperty→NodeProperty, Planning→PropertyDrawer, TableRow→TableRow. -/
theorem next_mode_table :
    (∀ (x : SyntaxT) (m : ParserMode), next_mode x true = some m ↔
      (x, m) ∈ ([(.Headline, .Section), (.InlineTask, .Planning),
        (.PlainList, .Item), (.PropertyDrawer, .NodeProperty),
        (.Section, .Planning), (.Table, .TableRow)] :
          List (SyntaxT × ParserMode))) ∧
    (∀ (x : SyntaxT) (m : ParserMode), next_mode x false = some m ↔
      (x, m) ∈ ([(.Item, .Item), (.NodeProperty, .NodeProperty),
        (.Planning, .PropertyDrawer), (.TableRow, .TableRow)] :
          List (SyntaxT × ParserMode))) := by
  constructor <;> decide

/-- **C9.** The lookahead queries `looking_at`, `line_beginning_position` and
`line_end_position` hand the cursor back with its position unchanged: the
saved position is restored on every exit path (for any regex, any `n`). -/
theorem lookahead_preserves_pos :
    ∀ (c : Cursor) (re : RegexModel) (n : Option Int),
      (looking_at c re).2 = c ∧
      (line_beginning_position c n).2.pos = c.pos ∧
      (line_end_position c n).2.pos = c.pos :=
  fun _ _ _ => ⟨rfl, rfl, rfl⟩

/-- **C10.** `Cursor::dec(d)` sets the position to `pos - d` when `d ≤ pos`
and saturates to 0 when `d > pos` — the position never underflows — while
the companions `inc` and `set` perform no bounds check at all. -/
theorem dec_saturates_inc_set_unchecked :
    ∀ (c : Cursor) (d i x : Nat),
      (d ≤ c.pos → (c.dec d).pos = c.pos - d) ∧
      (c.pos < d → (c.dec d).pos = 0) ∧
      (c.dec d).pos ≤ c.pos ∧
      (c.inc i).pos = c.pos + i ∧
      (c.set x).pos = x := by
  intro c d i x
  unfold Cursor.dec
  by_cases h : d > c.pos
  · rw [if_pos h]
    exact ⟨fun hle => absurd hle (by omega), fun _ => rfl, by simp, rfl, rfl⟩
  · rw [if_neg h]
    exact ⟨fun _ => rfl, fun hlt => absurd hlt (by omega), Nat.sub_le _ _, rfl, rfl⟩

/-- **C8 counterexample.** The claim's return convention fails on
unterminated lines.  On the buffer `"ab"` with the cursor at its end (offset
2, an unterminated current line), `line_end_position(None)` returns 1 — the
previous char boundary — not the buffer end 2; and a previous character
exists (`Char::prev` = 1), so the claim's `0`-when-no-previous-character
clause does not apply.  On `"ab\n"` at 0 it returns 2, the newline's offset
(one past the last character `b` at offset 1), which refutes the alternative
reading under which 1 (the last character's own offset) would have been
expected on the first buffer. -/
theorem line_end_position_unterminated_cex :
    (line_end_position ⟨OrgStr "ab", 2⟩ none).1 = 1 ∧
    (OrgStr "ab").length = 2 ∧
    CharMetric.prev (OrgStr "ab") 2 = some 1 ∧
    (line_end_position ⟨OrgStr "ab\n", 0⟩ none).1 = 2 := by
  decide

/-- **C8 (amended).** For `n = None` or `Some 1` (the current line):
`line_end_position` returns the offset of the first newline at or after the
cursor — the position just past the line's last character — when the line is
terminated; when no newline follows, it returns the previous character
boundary before the cursor (`Char::prev`, not the buffer end), and 0 when no
previous character exists. -/
theorem line_end_position_current_line (s : List Nat) (pos : Nat)
    (hpos : pos ≤ s.length) :
    ((∃ d, memchr 10 (s.drop pos) = some d ∧
        (line_end_position ⟨s, pos⟩ none).1 = pos + d ∧
        s[pos + d]? = some 10 ∧ ∀ j, j < d → s[pos + j]? ≠ some 10) ∨
      (memchr 10 (s.drop pos) = none ∧
        (line_end_position ⟨s, pos⟩ none).1 = (CharMetric.prev s pos).getD 0 ∧
        ∀ j, pos ≤ j → j < s.length → s[j]? ≠ some 10)) ∧
    (line_end_position ⟨s, pos⟩ (some 1)).1 = (line_end_position ⟨s, pos⟩ none).1 := by
  have e1 : (line_end_position ⟨s, pos⟩ none).1
      = ((Cursor.mprev_char (Cursor.mnext_line ⟨s, pos⟩).2).1.getD 0) := rfl
  constructor
  · cases hm : memchr 10 (s.drop pos) with
    | some d =>
      left
      obtain ⟨h1, h2, h3⟩ := memchr_some _ _ _ hm
      rw [drop_getElem?_eq] at h2
      have hnext : LinesMetric.next s pos = some (pos + d + 1) := by
        unfold LinesMetric.next
        rw [hm]
        rfl
      have e2 : (Cursor.mnext_line ⟨s, pos⟩).2 = ⟨s, pos + d + 1⟩ := by
        unfold Cursor.mnext_line
        rw [hnext]
        rfl
      have hbd : is_char_boundary s (pos + d) = true := by
        unfold is_char_boundary
        by_cases h0 : pos + d = 0
        · rw [if_pos h0]
        · rw [if_neg h0, h2]
          simp
      have e3 : CharMetric.prev s (pos + d + 1) = some (pos + d) := by
        unfold CharMetric.prev
        rw [if_neg (by omega : ¬ pos + d + 1 = 0)]
        rw [show pos + d + 1 - 1 = pos + d from rfl]
        rw [charPrevSearch_self s (pos + d) hbd]
      have e4 : (Cursor.mprev_char ⟨s, pos + d + 1⟩).1 = some (pos + d) := by
        unfold Cursor.mprev_char
        rw [e3]
      refine ⟨d, rfl, ?_, h2, ?_⟩
      · rw [e1, e2, e4]
        rfl
      · intro j hj
        rw [← drop_getElem?_eq]
        exact h3 j hj
    | none =>
      right
      have hnext : LinesMetric.next s pos = none := by
        unfold LinesMetric.next
        rw [hm]
        rfl
      have e2 : (Cursor.mnext_line ⟨s, pos⟩).2 = ⟨s, pos⟩ := by
        unfold Cursor.mnext_line
        rw [hnext]
      refine ⟨rfl, ?_, ?_⟩
      · rw [e1, e2]
        unfold Cursor.mprev_char
        cases hcp : CharMetric.prev s pos with
        | none => rfl
        | some o => rfl
      · intro j hpj hjl hc
        have hidx : (s.drop pos)[j - pos]? = some 10 := by
          rw [drop_getElem?_eq]
          rw [show pos + (j - pos) = j by omega]
          exact hc
        exact (memchr_none_iff _ _).mp hm 10 (mem_of_idx hidx) rfl
  · rfl

/-- Witness for the amended C8 on the buffer `"ab"` at offset 2 (the
counterexample's own input, now matching the corrected convention). -/
theorem line_end_position_current_line_witness :
    ((∃ d, memchr 10 ((OrgStr "ab").drop 2) = some d ∧
        (line_end_position ⟨OrgStr "ab", 2⟩ none).1 = 2 + d ∧
        (OrgStr "ab")[2 + d]? = some 10 ∧
        ∀ j, j < d → (OrgStr "ab")[2 + j]? ≠ some 10) ∨
      (memchr 10 ((OrgStr "ab").drop 2) = none ∧
        (line_end_position ⟨OrgStr "ab", 2⟩ none).1
          = (CharMetric.prev (OrgStr "ab") 2).getD 0 ∧
        ∀ j, 2 ≤ j → j < (OrgStr "ab").length → (OrgStr "ab")[j]? ≠ some 10)) ∧
    (line_end_position ⟨OrgStr "ab", 2⟩ (some 1)).1
      = (line_end_position ⟨OrgStr "ab", 2⟩ none).1 :=
  line_end_position_current_line (OrgStr "ab") 2 (by decide)

/-- **C4.** `collect_affiliated_keywords(limit)`: a cursor not at
beginning-of-line short-circuits to `(pos, None)` with nothing scanned and
the cursor untouched; keyword lines followed by a blank line are orphaned —
the cursor is rewound to the origin and `(origin, None)` returned; and the
two concrete scenarios: the caption/attr input ending in a blank line yields
`(0, None)`, while the same input ending in `#+BEGIN_SRC` yields
caption value `"org-rs"` with secondary `"GIT"` and
`ATTR_HTML = [":file filename.ext"]`. -/
theorem collect_affiliated_keywords_spec :
    (∀ (data : List Nat) (pos limit : Nat), Cursor.is_bol ⟨data, pos⟩ = false →
      collect_affiliated_keywords data pos limit = ((pos, none), pos)) ∧
    (∀ (data : List Nat) (pos limit : Nat), Cursor.is_bol ⟨data, pos⟩ = true →
      is_empty_line data
        (collectLoop data limit (data.length + 1) pos AffiliatedData.empty).1 = true →
      collect_affiliated_keywords data pos limit = ((pos, none), pos)) ∧
    (collect_affiliated_keywords
        (OrgStr "#+caPtion[GIT]: org-rs\n#+attr_html: :file filename.ext\n\n") 0
        (OrgStr "#+caPtion[GIT]: org-rs\n#+attr_html: :file filename.ext\n\n").length
      = ((0, none), 0)) ∧
    (collect_affiliated_keywords
        (OrgStr "#+caPtion[GIT]: org-rs\n#+attr_html: :file filename.ext\n#+BEGIN_SRC") 0
        (OrgStr "#+caPtion[GIT]: org-rs\n#+attr_html: :file filename.ext\n#+BEGIN_SRC").length
      = ((0, some ⟨[⟨OrgStr "org-rs", some (OrgStr "GIT")⟩], [], none, none, none,
          [(OrgStr "ATTR_HTML", [OrgStr ":file filename.ext"])]⟩), 55)) := by
  refine ⟨?_, ?_, by decide, by decide⟩
  · intro data pos limit h
    unfold collect_affiliated_keywords
    rw [h]
    rfl
  · intro data pos limit h hblank
    unfold collect_affiliated_keywords
    rw [h]
    simp only [Bool.not_true, Bool.false_eq_true, if_false]
    rw [hblank]
    rfl

/-- Witness for C4: the short-circuit at a non-BOL offset and the orphan
rewind on a blank-only buffer. -/
theorem collect_affiliated_keywords_spec_witness :
    collect_affiliated_keywords (OrgStr "x") 1 5 = ((1, none), 1) ∧
    collect_affiliated_keywords (OrgStr " \n") 0 2 = ((0, none), 0) :=
  ⟨collect_affiliated_keywords_spec.1 (OrgStr "x") 1 5 (by decide),
   collect_affiliated_keywords_spec.2.1 (OrgStr " \n") 0 2 (by decide) (by decide)⟩

theorem matchIndicesAux_ge (needle hay : List Nat) :
    ∀ (fuel i : Nat), ∀ x ∈ matchIndicesAux needle hay i fuel, i ≤ x := by
  intro fuel
  induction fuel with
  | zero =>
    intro i x hx
    simp [matchIndicesAux] at hx
  | succ f ih =>
    intro i x hx
    unfold matchIndicesAux at hx
    split at hx
    · split at hx
      · rcases List.mem_cons.mp hx with rfl | hx2
        · exact Nat.le_refl x
        · have hge := ih _ x hx2
          have h1 : 1 ≤ Nat.max needle.length 1 := Nat.le_max_right _ _
          omega
      · have hge := ih _ x hx
        omega
    · simp at hx

theorem matchIndicesAux_pairwise (needle hay : List Nat) :
    ∀ (fuel i : Nat), List.Pairwise (· < ·) (matchIndicesAux needle hay i fuel) := by
  intro fuel
  induction fuel with
  | zero =>
    intro i
    simp [matchIndicesAux]
  | succ f ih =>
    intro i
    unfold matchIndicesAux
    split
    · split
      · refine List.Pairwise.cons ?_ (ih _)
        intro x hx
        have hge := matchIndicesAux_ge needle hay f _ x hx
        have h1 : 1 ≤ Nat.max needle.length 1 := Nat.le_max_right _ _
        omega
      · exact ih _
    · exact List.Pairwise.nil

theorem matchIndicesAux_matches (needle hay : List Nat) :
    ∀ (fuel i : Nat), ∀ x ∈ matchIndicesAux needle hay i fuel,
      (hay.drop x).take needle.length = needle := by
  intro fuel
  induction fuel with
  | zero =>
    intro i x hx
    simp [matchIndicesAux] at hx
  | succ f ih =>
    intro i x hx
    unfold matchIndicesAux at hx
    split at hx
    · split at hx
      · rcases List.mem_cons.mp hx with rfl | hx2
        · assumption
        · exact ih _ x hx2
      · exact ih _ x hx
    · simp at hx

theorem searchLoop_spec (pos nlen bound count : Nat) :
    ∀ (l : List Nat) (i : Nat), 1 ≤ i → i ≤ count → List.Pairwise (· < ·) l →
      searchLoop pos nlen bound count l i =
        (l[count - i]?).bind
          (fun r => if r + pos + nlen ≤ bound then some (r + pos + nlen) else none) := by
  intro l
  induction l with
  | nil =>
    intro i h1 h2 hp
    simp [searchLoop]
  | cons r rest ih =>
    intro i h1 h2 hp
    unfold searchLoop
    by_cases hov : r + pos + nlen > bound
    · rw [if_pos hov]
      by_cases hc : count = i
      · subst hc
        rw [Nat.sub_self]
        simp only [List.getElem?_cons_zero, Option.some_bind]
        rw [if_neg (by omega)]
      · obtain ⟨k, hk⟩ : ∃ k, count - i = k + 1 := ⟨count - i - 1, by omega⟩
        rw [hk, List.getElem?_cons_succ]
        cases hre : rest[k]? with
        | none => simp
        | some r2 =>
          have hr2 : r < r2 := (List.pairwise_cons.mp hp).1 r2 (mem_of_idx hre)
          simp only [Option.some_bind]
          rw [if_neg (by omega)]
    · rw [if_neg hov]
      by_cases hc : count = i
      · rw [if_pos hc]
        subst hc
        rw [Nat.sub_self]
        simp only [List.getElem?_cons_zero, Option.some_bind]
        rw [if_pos (by omega)]
      · rw [if_neg hc]
        rw [ih (i + 1) (by omega) (by omega) (List.pairwise_cons.mp hp).2]
        obtain ⟨k, hk⟩ : ∃ k, count - i = k + 1 := ⟨count - i - 1, by omega⟩
        rw [hk, List.getElem?_cons_succ]
        rw [show count - (i + 1) = k by omega]

/-- **C6.** `search_forward(literal, bound, count)` finds the `count`-th
(default 1) occurrence of the literal at or after `pos` whose end does not
exceed `bound` (default: buffer end): it returns `None` with the cursor
unchanged whenever `bound < pos` or the `count`-th occurrence is missing or
ends past `bound` (occurrence ends are strictly increasing, so that is
"fewer than `count` occurrences end at or before `bound`"), and on success
returns the match end and sets the cursor position to it; every recorded
occurrence really is a substring match of the literal. -/
theorem search_forward_spec (s needle : List Nat) (pos : Nat)
    (bound count : Option Nat) (hpos : pos ≤ s.length)
    (hc : 1 ≤ count.getD 1) :
    (bound.getD s.length < pos →
      search_forward ⟨s, pos⟩ needle bound count = (none, ⟨s, pos⟩)) ∧
    ((search_forward ⟨s, pos⟩ needle bound count).1 =
      (((match_indices needle (s.drop pos)).map
          (fun r => pos + r + needle.length))[count.getD 1 - 1]?).bind
        (fun e => if e ≤ bound.getD s.length then some e else none)) ∧
    ((search_forward ⟨s, pos⟩ needle bound count).2 =
      ⟨s, ((search_forward ⟨s, pos⟩ needle bound count).1).getD pos⟩) ∧
    (∀ r ∈ match_indices needle (s.drop pos),
      ((s.drop pos).drop r).take needle.length = needle) := by
  have hloop := searchLoop_spec pos needle.length (bound.getD s.length)
    (count.getD 1) (match_indices needle (s.drop pos)) 1 (Nat.le_refl 1) hc
    (matchIndicesAux_pairwise needle (s.drop pos) _ 0)
  have hmap : ∀ (k : Nat), ((match_indices needle (s.drop pos)).map
      (fun r => pos + r + needle.length))[k]? =
      ((match_indices needle (s.drop pos))[k]?).map (fun r => pos + r + needle.length) := by
    intro k
    exact List.getElem?_map (fun r => pos + r + needle.length)
      (match_indices needle (s.drop pos)) k
  refine ⟨?_, ?_, ?_, fun r hr => matchIndicesAux_matches needle (s.drop pos) _ 0 r hr⟩
  · intro hblt
    unfold search_forward
    rw [if_pos hblt]
  · unfold search_forward
    by_cases hblt : bound.getD s.length < pos
    · rw [if_pos hblt]
      simp only []
      symm
      rw [hmap]
      cases hg : (match_indices needle (s.drop pos))[count.getD 1 - 1]? with
      | none => rfl
      | some r =>
        simp only [Option.map_some', Option.some_bind]
        rw [if_neg (by omega)]
    · rw [if_neg hblt]
      rw [hloop]
      rw [show count.getD 1 - 1 = count.getD 1 - 1 from rfl]
      rw [hmap]
      cases hg : (match_indices needle (s.drop pos))[count.getD 1 - 1]? with
      | none => rfl
      | some r =>
        simp only [Option.map_some', Option.some_bind]
        by_cases hle : r + pos + needle.length ≤ bound.getD s.length
        · rw [if_pos hle, if_pos (by omega)]
          show some (r + pos + needle.length) = some (pos + r + needle.length)
          congr 1
          omega
        · rw [if_neg hle, if_neg (by omega)]
  · unfold search_forward
    by_cases hblt : bound.getD s.length < pos
    · rw [if_pos hblt]
      rfl
    · rw [if_neg hblt]
      cases hsl : searchLoop pos needle.length (bound.getD s.length) (count.getD 1)
          (match_indices needle (s.drop pos)) 1 with
      | none => rfl
      | some e => rfl

/-- Witness for C6 on `"abcab"`, literal `"ab"`, count 2: the second
occurrence ends at 5. -/
theorem search_forward_spec_witness :
    (Option.getD none ([97, 98, 99, 97, 98] : List Nat).length < 0 →
      search_forward ⟨[97, 98, 99, 97, 98], 0⟩ [97, 98] none (some 2)
        = (none, ⟨[97, 98, 99, 97, 98], 0⟩)) ∧
    ((search_forward ⟨[97, 98, 99, 97, 98], 0⟩ [97, 98] none (some 2)).1 =
      (((match_indices [97, 98] (([97, 98, 99, 97, 98] : List Nat).drop 0)).map
          (fun r => 0 + r + ([97, 98] : List Nat).length))[Option.getD (some 2) 1 - 1]?).bind
        (fun e => if e ≤ Option.getD none ([97, 98, 99, 97, 98] : List Nat).length
          then some e else none)) ∧
    ((search_forward ⟨[97, 98, 99, 97, 98], 0⟩ [97, 98] none (some 2)).2 =
      ⟨[97, 98, 99, 97, 98],
        ((search_forward ⟨[97, 98, 99, 97, 98], 0⟩ [97, 98] none (some 2)).1).getD 0⟩) ∧
    (∀ r ∈ match_indices [97, 98] (([97, 98, 99, 97, 98] : List Nat).drop 0),
      ((([97, 98, 99, 97, 98] : List Nat).drop 0).drop r).take
        ([97, 98] : List Nat).length = [97, 98]) :=
  search_forward_spec [97, 98, 99, 97, 98] [97, 98] 0 none (some 2)
    (by decide) (by decide)

theorem getElem?_lt {l : List Nat} {n b : Nat} (h : l[n]? = some b) : n < l.length := by
  by_contra hc
  rw [List.getElem?_eq_none (by omega)] at h
  cases h

theorem getD_of_getElem? {l : List Nat} {n b : Nat} (h : l[n]? = some b) :
    l.getD n 0 = b := by
  simp [List.getD, List.get?_eq_getElem?, h]

theorem decode_char_facts (s : List Nat) (p ch : Nat)
    (h : decodeCharAt s p = some ch) :
    is_char_boundary s p = true ∧
    p + len_utf8_from_first_byte (s.getD p 0) ≤ s.length ∧
    (∀ q, p < q → q < p + len_utf8_from_first_byte (s.getD p 0) →
      is_char_boundary s q = false) := by
  unfold decodeCharAt at h
  split at h
  · cases h
  · next b hb =>
    have hgd : s.getD p 0 = b := getD_of_getElem? hb
    rw [hgd]
    have hpl : p < s.length := getElem?_lt hb
    have hbd0 : ∀ hlead : (decide (b < 0x80) || decide (0xC0 ≤ b)) = true,
        is_char_boundary s p = true := by
      intro hlead
      unfold is_char_boundary
      by_cases hp0 : p = 0
      · rw [if_pos hp0]
      · rw [if_neg hp0, hb]
        exact hlead
    have hcontb : ∀ (q c : Nat), s[q]? = some c → isCont c = true → q ≠ 0 →
        is_char_boundary s q = false := by
      intro q c hq hc hq0
      unfold is_char_boundary
      rw [if_neg hq0, hq]
      unfold isCont at hc
      simp at hc ⊢
      omega
    by_cases h1 : b < 0x80
    · rw [if_pos h1] at h
      have hn : len_utf8_from_first_byte b = 1 := by
        unfold len_utf8_from_first_byte
        rw [if_pos h1]
      rw [hn]
      exact ⟨hbd0 (by simp [h1]), by omega, fun q hq1 hq2 => absurd hq1 (by omega)⟩
    · rw [if_neg h1] at h
      by_cases h2 : b < 0xC2
      · rw [if_pos h2] at h; cases h
      · rw [if_neg h2] at h
        by_cases h3 : b < 0xE0
        · rw [if_pos h3] at h
          split at h
          · next c1 hc1 =>
            by_cases hcc : isCont c1 = true
            · have hn : len_utf8_from_first_byte b = 2 := by
                unfold len_utf8_from_first_byte
                rw [if_neg h1, if_pos h3]
              rw [hn]
              refine ⟨hbd0 (by simp; omega), by have := getElem?_lt hc1; omega, ?_⟩
              intro q hq1 hq2
              have hqe : q = p + 1 := by omega
              subst hqe
              exact hcontb _ _ hc1 hcc (by omega)
            · rw [if_neg hcc] at h; cases h
          · cases h
        · rw [if_neg h3] at h
          by_cases h4 : b < 0xF0
          · rw [if_pos h4] at h
            split at h
            · next c1 c2 hc1 hc2 =>
              by_cases hcc : (isCont c1 && isCont c2) = true
              · rw [if_pos hcc] at h
                simp only [Bool.and_eq_true] at hcc
                have hn : len_utf8_from_first_byte b = 3 := by
                  unfold len_utf8_from_first_byte
                  rw [if_neg h1, if_neg h3, if_pos h4]
                rw [hn]
                refine ⟨hbd0 (by simp; omega), by have := getElem?_lt hc2; omega, ?_⟩
                intro q hq1 hq2
                rcases (by omega : q = p + 1 ∨ q = p + 2) with hqe | hqe <;> subst hqe
                · exact hcontb _ _ hc1 hcc.1 (by omega)
                · exact hcontb _ _ hc2 hcc.2 (by omega)
              · rw [if_neg hcc] at h; cases h
            · cases h
          · rw [if_neg h4] at h
            by_cases h5 : b < 0xF5
            · rw [if_pos h5] at h
              split at h
              · next c1 c2 c3 hc1 hc2 hc3 =>
                by_cases hcc : (isCont c1 && isCont c2 && isCont c3) = true
                · rw [if_pos hcc] at h
                  simp only [Bool.and_eq_true] at hcc
                  have hn : len_utf8_from_first_byte b = 4 := by
                    unfold len_utf8_from_first_byte
                    rw [if_neg h1, if_neg h3, if_neg h4]
                  rw [hn]
                  refine ⟨hbd0 (by simp; omega),
                    by have := getElem?_lt hc3; omega, ?_⟩
                  intro q hq1 hq2
                  rcases (by omega : q = p + 1 ∨ q = p + 2 ∨ q = p + 3)
                    with hqe | hqe | hqe <;> subst hqe
                  · exact hcontb _ _ hc1 hcc.1.1 (by omega)
                  · exact hcontb _ _ hc2 hcc.1.2 (by omega)
                  · exact hcontb _ _ hc3 hcc.2 (by omega)
                · rw [if_neg hcc] at h; cases h
              · cases h
            · rw [if_neg h5] at h; cases h

theorem decode_prev_next (s : List Nat) (p ch : Nat)
    (h : decodeCharAt s p = some ch) :
    CharMetric.prev s (p + len_utf8_from_first_byte (s.getD p 0)) = some p ∧
    CharMetric.next s p = some (p + len_utf8_from_first_byte (s.getD p 0)) := by
  obtain ⟨hbd, hle, hint⟩ := decode_char_facts s p ch h
  have hn1 : 0 < len_utf8_from_first_byte (s.getD p 0) := len_utf8_pos _
  constructor
  · unfold CharMetric.prev
    rw [if_neg (by omega)]
    congr 1
    apply charPrevSearch_eq
    · omega
    · exact hbd
    · intro q hq1 hq2
      exact hint q hq1 (by omega)
  · unfold CharMetric.next
    have hpl : p < s.length := by omega
    rw [if_neg (by omega)]
    cases hb : s[p]? with
    | none =>
      rw [List.getElem?_eq_getElem hpl] at hb
      cases hb
    | some b =>
      rw [getD_of_getElem? hb]

theorem next_none_decode_none (s : List Nat) (p : Nat)
    (h : CharMetric.next s p = none) : decodeCharAt s p = none := by
  unfold CharMetric.next at h
  by_cases hp : p = s.length
  · unfold decodeCharAt
    rw [List.getElem?_eq_none (by omega)]
  · rw [if_neg hp] at h
    cases hb : s[p]? with
    | some b => rw [hb] at h; cases h
    | none =>
      unfold decodeCharAt
      rw [hb]

theorem stopF_some (s charset : List Nat) (origPos limit j ch : Nat)
    (hd : decodeCharAt s (advanceF s origPos j) = some ch) :
    stopF s charset origPos limit j
      = (!(charset.contains ch) || decide (j + origPos > limit)) := by
  unfold stopF
  rw [hd]

theorem stopF_none (s charset : List Nat) (origPos limit j : Nat)
    (hd : decodeCharAt s (advanceF s origPos j) = none) :
    stopF s charset origPos limit j = true := by
  unfold stopF
  rw [hd]

theorem get_lnext_char_some (s : List Nat) (p nxt ch : Nat)
    (hnx : CharMetric.next s p = some nxt) (hd : decodeCharAt s p = some ch) :
    Cursor.get_lnext_char ⟨s, p⟩ = (some ch, ⟨s, nxt⟩) := by
  unfold Cursor.get_lnext_char
  rw [hnx, hd]
  rfl

theorem get_lnext_char_nochar (s : List Nat) (p : Nat)
    (hd : decodeCharAt s p = none) :
    Cursor.get_lnext_char ⟨s, p⟩ = (none, ⟨s, p⟩) := by
  unfold Cursor.get_lnext_char
  cases hnx : CharMetric.next s p with
  | none => rfl
  | some nxt => rw [hd]

theorem mprev_char_snd (s : List Nat) (q p2 : Nat)
    (h : CharMetric.prev s q = some p2) :
    (Cursor.mprev_char ⟨s, q⟩).2 = ⟨s, p2⟩ := by
  unfold Cursor.mprev_char
  rw [h]
  rfl

theorem skipFwdLoop_succ (charset : List Nat) (origPos limit : Nat)
    (c : Cursor) (count f : Nat) :
    skipFwdLoop charset origPos limit c count (f + 1)
      = match Cursor.get_lnext_char c with
        | (none, c1) => (count, c1)
        | (some ch, c1) =>
          if charset.contains ch = false then (count, (Cursor.mprev_char c1).2)
          else if count + origPos > limit then (count, (Cursor.mprev_char c1).2)
          else skipFwdLoop charset origPos limit c1 (count + 1) f := rfl

theorem skipFwdLoop_some (charset : List Nat) (origPos limit : Nat)
    (c c1 : Cursor) (ch count f : Nat)
    (h : Cursor.get_lnext_char c = (some ch, c1)) :
    skipFwdLoop charset origPos limit c count (f + 1)
      = if charset.contains ch = false then (count, (Cursor.mprev_char c1).2)
        else if count + origPos > limit then (count, (Cursor.mprev_char c1).2)
        else skipFwdLoop charset origPos limit c1 (count + 1) f := by
  rw [skipFwdLoop_succ, h]

theorem skipFwdLoop_spec (s charset : List Nat) (origPos limit : Nat) :
    ∀ (fuel j : Nat),
      s.length + 1 ≤ fuel + advanceF s origPos j →
      (∀ i, i < j → stopF s charset origPos limit i = false) →
      ∃ jf, skipFwdLoop charset origPos limit ⟨s, advanceF s origPos j⟩ j fuel
          = (jf, ⟨s, advanceF s origPos jf⟩) ∧
        stopF s charset origPos limit jf = true ∧
        ∀ i, i < jf → stopF s charset origPos limit i = false := by
  intro fuel
  induction fuel with
  | zero =>
    intro j hfuel hinv
    refine ⟨j, rfl, ?_, hinv⟩
    apply stopF_none
    unfold decodeCharAt
    rw [List.getElem?_eq_none (by omega)]
  | succ f ih =>
    intro j hfuel hinv
    cases hd : decodeCharAt s (advanceF s origPos j) with
    | none =>
      refine ⟨j, ?_, stopF_none s charset origPos limit j hd, hinv⟩
      rw [skipFwdLoop_succ, get_lnext_char_nochar s _ hd]
    | some ch =>
      obtain ⟨hprev, hnext⟩ := decode_prev_next s (advanceF s origPos j) ch hd
      obtain ⟨hbd, hsp, hint⟩ := decode_char_facts s (advanceF s origPos j) ch hd
      have hadv1 : advanceF s origPos (j + 1)
          = advanceF s origPos j
            + len_utf8_from_first_byte (s.getD (advanceF s origPos j) 0) := rfl
      rw [← hadv1] at hprev hnext hsp
      have hstep : advanceF s origPos j < advanceF s origPos (j + 1) := by
        rw [hadv1]
        have := len_utf8_pos (s.getD (advanceF s origPos j) 0)
        omega
      by_cases hmem : charset.contains ch = true
      · have hmemn : ¬ charset.contains ch = false := by
          rw [hmem]
          simp
        by_cases hlim : j + origPos > limit
        · refine ⟨j, ?_, ?_, hinv⟩
          · rw [skipFwdLoop_some charset origPos limit _ _ ch j f
              (get_lnext_char_some s _ _ _ hnext hd)]
            rw [if_neg hmemn, if_pos hlim]
            rw [mprev_char_snd s _ _ hprev]
          · rw [stopF_some s charset origPos limit j ch hd, hmem]
            simp [hlim]
        · have hnotstop : stopF s charset origPos limit j = false := by
            rw [stopF_some s charset origPos limit j ch hd, hmem]
            simp [hlim]
          have hinv1 : ∀ i, i < j + 1 → stopF s charset origPos limit i = false := by
            intro i hi
            rcases Nat.lt_or_ge i j with hij | hij
            · exact hinv i hij
            · have : i = j := by omega
              subst this
              exact hnotstop
          obtain ⟨jf, hloop, hstop, hinvf⟩ := ih (j + 1) (by omega) hinv1
          refine ⟨jf, ?_, hstop, hinvf⟩
          rw [skipFwdLoop_some charset origPos limit _ _ ch j f
            (get_lnext_char_some s _ _ _ hnext hd)]
          rw [if_neg hmemn, if_neg hlim]
          exact hloop
      · have hmemf : charset.contains ch = false := by
          cases hcc : charset.contains ch with
          | true => exact absurd hcc hmem
          | false => rfl
        refine ⟨j, ?_, ?_, hinv⟩
        · rw [skipFwdLoop_some charset origPos limit _ _ ch j f
            (get_lnext_char_some s _ _ _ hnext hd)]
          rw [if_pos hmemf]
          rw [mprev_char_snd s _ _ hprev]
        · rw [stopF_some s charset origPos limit j ch hd, hmemf]
          rfl

theorem boundary_le (s : List Nat) (p : Nat)
    (h : is_char_boundary s p = true) : p ≤ s.length := by
  unfold is_char_boundary at h
  by_cases hp : p = 0
  · omega
  · rw [if_neg hp] at h
    cases hx : s[p]? with
    | none =>
      rw [hx] at h
      have := of_decide_eq_true h
      omega
    | some b =>
      have := getElem?_lt hx
      omega

theorem decode_drop (s : List Nat) (n r : Nat) :
    decodeCharAt (s.drop n) r = decodeCharAt s (n + r) := by
  have h0 : (s.drop n)[r]? = s[n + r]? := drop_getElem?_eq s n r
  have h1 : (s.drop n)[r + 1]? = s[n + r + 1]? := by
    rw [Nat.add_assoc]
    exact drop_getElem?_eq s n (r + 1)
  have h2 : (s.drop n)[r + 2]? = s[n + r + 2]? := by
    rw [Nat.add_assoc]
    exact drop_getElem?_eq s n (r + 2)
  have h3 : (s.drop n)[r + 3]? = s[n + r + 3]? := by
    rw [Nat.add_assoc]
    exact drop_getElem?_eq s n (r + 3)
  unfold decodeCharAt
  rw [h0, h1, h2, h3]

theorem boundary_drop (s : List Nat) (n r : Nat) (hn : n ≤ s.length)
    (hr : 0 < r) :
    is_char_boundary (s.drop n) r = is_char_boundary s (n + r) := by
  unfold is_char_boundary
  rw [if_neg (by omega), if_neg (by omega), drop_getElem?_eq]
  cases hx : s[n + r]? with
  | none =>
    simp only [List.length_drop]
    exact decide_eq_decide.mpr (by omega)
  | some b => rfl

theorem decodeCharAt_1 (s : List Nat) (p b : Nat)
    (hx : s[p]? = some b) (g1 : b < 0x80) : decodeCharAt s p = some b := by
  unfold decodeCharAt
  split
  · next hnone => rw [hx] at hnone; cases hnone
  · next b2 hsome =>
    rw [hx] at hsome
    injection hsome with hbb
    subst hbb
    rw [if_pos g1]

theorem decodeCharAt_2 (s : List Nat) (p b c1 : Nat)
    (hx : s[p]? = some b) (hx1 : s[p + 1]? = some c1)
    (g1 : ¬ b < 0x80) (g2 : ¬ b < 0xC2) (g3 : b < 0xE0)
    (hc1 : isCont c1 = true) :
    decodeCharAt s p = some ((b - 0xC0) * 0x40 + (c1 - 0x80)) := by
  unfold decodeCharAt
  split
  · next hnone => rw [hx] at hnone; cases hnone
  · next b2 hsome =>
    rw [hx] at hsome
    injection hsome with hbb
    subst hbb
    rw [if_neg g1, if_neg g2, if_pos g3]
    split
    · next c1x hs1 =>
      rw [hx1] at hs1
      injection hs1 with hcc
      subst hcc
      rw [if_pos hc1]
    · next hs1 => rw [hx1] at hs1; cases hs1

theorem decodeCharAt_3 (s : List Nat) (p b c1 c2 : Nat)
    (hx : s[p]? = some b) (hx1 : s[p + 1]? = some c1)
    (hx2 : s[p + 2]? = some c2)
    (g1 : ¬ b < 0x80) (g2 : ¬ b < 0xC2) (g3 : ¬ b < 0xE0) (g4 : b < 0xF0)
    (hc1 : isCont c1 = true) (hc2 : isCont c2 = true) :
    decodeCharAt s p
      = some ((b - 0xE0) * 0x1000 + (c1 - 0x80) * 0x40 + (c2 - 0x80)) := by
  unfold decodeCharAt
  split
  · next hnone => rw [hx] at hnone; cases hnone
  · next b2 hsome =>
    rw [hx] at hsome
    injection hsome with hbb
    subst hbb
    rw [if_neg g1, if_neg g2, if_neg g3, if_pos g4]
    simp [hx1, hx2, hc1, hc2]

theorem decodeCharAt_4 (s : List Nat) (p b c1 c2 c3 : Nat)
    (hx : s[p]? = some b) (hx1 : s[p + 1]? = some c1)
    (hx2 : s[p + 2]? = some c2) (hx3 : s[p + 3]? = some c3)
    (g1 : ¬ b < 0x80) (g2 : ¬ b < 0xC2) (g3 : ¬ b < 0xE0) (g4 : ¬ b < 0xF0)
    (g5 : b < 0xF5)
    (hc1 : isCont c1 = true) (hc2 : isCont c2 = true)
    (hc3 : isCont c3 = true) :
    decodeCharAt s p
      = some ((b - 0xF0) * 0x40000 + (c1 - 0x80) * 0x1000 +
          (c2 - 0x80) * 0x40 + (c3 - 0x80)) := by
  unfold decodeCharAt
  split
  · next hnone => rw [hx] at hnone; cases hnone
  · next b2 hsome =>
    rw [hx] at hsome
    injection hsome with hbb
    subst hbb
    rw [if_neg g1, if_neg g2, if_neg g3, if_neg g4, if_pos g5]
    simp [hx1, hx2, hx3, hc1, hc2, hc3]

theorem valid_head_decode (s : List Nat) (hv : validUtf8 s = true)
    (hne : s ≠ []) :
    ∃ ch, decodeCharAt s 0 = some ch ∧
      validUtf8 (s.drop (len_utf8_from_first_byte (s.getD 0 0))) = true := by
  cases s with
  | nil => exact absurd rfl hne
  | cons b rest =>
    have hg : (b :: rest).getD 0 0 = b := rfl
    rw [hg]
    unfold validUtf8 validScan at hv
    by_cases g1 : b < 0x80
    · rw [if_pos g1] at hv
      refine ⟨b, decodeCharAt_1 _ 0 b (by simp) g1, ?_⟩
      have hl : len_utf8_from_first_byte b = 1 := by
        unfold len_utf8_from_first_byte
        rw [if_pos g1]
      rw [hl]
      exact hv
    · rw [if_neg g1] at hv
      by_cases g2 : b < 0xC2
      · rw [if_pos g2] at hv
        exact Bool.noConfusion hv
      · rw [if_neg g2] at hv
        by_cases g3 : b < 0xE0
        · rw [if_pos g3] at hv
          cases rest with
          | nil => exact Bool.noConfusion hv
          | cons c1 r =>
            have hv2 : (isCont c1 && validUtf8 r) = true := hv
            rw [Bool.and_eq_true] at hv2
            obtain ⟨hc1, hr⟩ := hv2
            refine ⟨(b - 0xC0) * 0x40 + (c1 - 0x80),
              decodeCharAt_2 _ 0 b c1 (by simp) (by simp) g1 g2 g3 hc1, ?_⟩
            have hl : len_utf8_from_first_byte b = 2 := by
              unfold len_utf8_from_first_byte
              rw [if_neg g1, if_pos g3]
            rw [hl]
            exact hr
        · rw [if_neg g3] at hv
          by_cases g4 : b < 0xF0
          · rw [if_pos g4] at hv
            cases rest with
            | nil => exact Bool.noConfusion hv
            | cons c1 rest2 =>
              cases rest2 with
              | nil =>
                have hv2 : (isCont c1 && false) = true := hv
                rw [Bool.and_false] at hv2
                exact Bool.noConfusion hv2
              | cons c2 r =>
                have hv2 : (isCont c1 && (isCont c2 && validUtf8 r))
                    = true := hv
                rw [Bool.and_eq_true, Bool.and_eq_true] at hv2
                obtain ⟨hc1, hc2, hr⟩ := hv2
                refine ⟨(b - 0xE0) * 0x1000 + (c1 - 0x80) * 0x40 + (c2 - 0x80),
                  decodeCharAt_3 _ 0 b c1 c2 (by simp) (by simp) (by simp) g1 g2 g3 g4 hc1 hc2,
                  ?_⟩
                have hl : len_utf8_from_first_byte b = 3 := by
                  unfold len_utf8_from_first_byte
                  rw [if_neg g1, if_neg g3, if_pos g4]
                rw [hl]
                exact hr
          · rw [if_neg g4] at hv
            by_cases g5 : b < 0xF5
            · rw [if_pos g5] at hv
              cases rest with
              | nil => exact Bool.noConfusion hv
              | cons c1 rest2 =>
                cases rest2 with
                | nil =>
                  have hv2 : (isCont c1 && false) = true := hv
                  rw [Bool.and_false] at hv2
                  exact Bool.noConfusion hv2
                | cons c2 rest3 =>
                  cases rest3 with
                  | nil =>
                    have hv2 : (isCont c1 && (isCont c2 && false)) = true := hv
                    rw [Bool.and_false, Bool.and_false] at hv2
                    exact Bool.noConfusion hv2
                  | cons c3 r =>
                    have hv2 : (isCont c1 && (isCont c2 && (isCont c3 &&
                        validUtf8 r))) = true := hv
                    rw [Bool.and_eq_true, Bool.and_eq_true,
                      Bool.and_eq_true] at hv2
                    obtain ⟨hc1, hc2, hc3, hr⟩ := hv2
                    refine ⟨(b - 0xF0) * 0x40000 + (c1 - 0x80) * 0x1000 +
                      (c2 - 0x80) * 0x40 + (c3 - 0x80),
                      decodeCharAt_4 _ 0 b c1 c2 c3 (by simp) (by simp) (by simp) (by simp)
                        g1 g2 g3 g4 g5 hc1 hc2 hc3, ?_⟩
                    have hl : len_utf8_from_first_byte b = 4 := by
                      unfold len_utf8_from_first_byte
                      rw [if_neg g1, if_neg g3, if_neg g4]
                    rw [hl]
                    exact hr
            · rw [if_neg g5] at hv
              exact Bool.noConfusion hv

theorem decode_some_byte (s : List Nat) (p ch : Nat)
    (h : decodeCharAt s p = some ch) : ∃ b, s[p]? = some b := by
  unfold decodeCharAt at h
  split at h
  · cases h
  · next b hb => exact ⟨b, hb⟩

theorem valid_prev_step :
    ∀ (N : Nat) (s : List Nat) (p : Nat), s.length ≤ N → validUtf8 s = true →
      is_char_boundary s p = true → 0 < p →
      ∃ q ch, CharMetric.prev s p = some q ∧ decodeCharAt s q = some ch ∧
        q + len_utf8_from_first_byte (s.getD q 0) = p := by
  intro N
  induction N with
  | zero =>
    intro s p hN hv hb hp
    have := boundary_le s p hb
    omega
  | succ N ih =>
    intro s p hN hv hb hp
    have hple := boundary_le s p hb
    have hne : s ≠ [] := by
      intro he
      subst he
      simp at hple
      omega
    obtain ⟨ch0, hd0, hvt⟩ := valid_head_decode s hv hne
    obtain ⟨hb0, hn, hint⟩ := decode_char_facts s 0 ch0 hd0
    set n := len_utf8_from_first_byte (s.getD 0 0) with hn_def
    have hn1 : 0 < n := len_utf8_pos _
    by_cases hpn : p ≤ n
    · have hpe : p = n := by
        by_contra hne2
        have hcontra := hint p hp (by omega)
        rw [hb] at hcontra
        exact Bool.noConfusion hcontra
      refine ⟨0, ch0, ?_, hd0, by omega⟩
      unfold CharMetric.prev
      rw [if_neg (by omega)]
      congr 1
      exact charPrevSearch_eq s 0 (p - 1) (by omega) (is_char_boundary_zero s)
        (fun q h1 h2 => hint q h1 (by omega))
    · have hp' : 0 < p - n := by omega
      have hbt : is_char_boundary (s.drop n) (p - n) = true := by
        rw [boundary_drop s n (p - n) (by omega) (by omega)]
        have he : n + (p - n) = p := by omega
        rw [he]
        exact hb
      have hlt : (s.drop n).length ≤ N := by
        rw [List.length_drop]
        omega
      obtain ⟨q', ch', hprev', hdec', hlen'⟩ :=
        ih (s.drop n) (p - n) hlt hvt hbt hp'
      have hdecs : decodeCharAt s (n + q') = some ch' := by
        rw [← decode_drop]
        exact hdec'
      obtain ⟨hbq, hqle, hqint⟩ := decode_char_facts s (n + q') ch' hdecs
      have hgd : (s.drop n).getD q' 0 = s.getD (n + q') 0 := by
        obtain ⟨b, hbb⟩ := decode_some_byte _ _ _ hdec'
        have hbb2 : s[n + q']? = some b := by
          rw [← drop_getElem?_eq]
          exact hbb
        rw [getD_of_getElem? hbb, getD_of_getElem? hbb2]
      have hq'lt : q' < p - n := by
        have := len_utf8_pos ((s.drop n).getD q' 0)
        omega
      have hqp : (n + q') + len_utf8_from_first_byte (s.getD (n + q') 0)
          = p := by
        rw [← hgd]
        omega
      refine ⟨n + q', ch', ?_, hdecs, hqp⟩
      unfold CharMetric.prev
      rw [if_neg (by omega)]
      congr 1
      apply charPrevSearch_eq s (n + q') (p - 1) (by omega) hbq
      intro x h1 h2
      apply hqint x h1
      omega

theorem get_lprev_char_some (s : List Nat) (p prv ch : Nat)
    (h1 : CharMetric.prev s p = some prv)
    (h2 : decodeCharAt s prv = some ch) :
    Cursor.get_lprev_char ⟨s, p⟩ = (some ch, ⟨s, prv⟩) := by
  unfold Cursor.get_lprev_char
  rw [h1]
  show (match decodeCharAt s prv with
    | none => ((none : Option Nat), (⟨s, p⟩ : Cursor))
    | some ch => (some ch, Cursor.set ⟨s, p⟩ prv)) = (some ch, ⟨s, prv⟩)
  rw [h2]
  rfl

theorem get_lprev_char_bof (s : List Nat) :
    Cursor.get_lprev_char ⟨s, 0⟩ = (none, ⟨s, 0⟩) := rfl

theorem mnext_char_snd (s : List Nat) (q p2 : Nat)
    (h : CharMetric.next s q = some p2) :
    (Cursor.mnext_char ⟨s, q⟩).2 = ⟨s, p2⟩ := by
  unfold Cursor.mnext_char
  rw [h]
  rfl

theorem stopB_bof (s charset : List Nat) (limit pos j : Nat)
    (h : CharMetric.prev s (retreatB s pos j) = none) :
    stopB s charset limit pos j = true := by
  unfold stopB
  rw [h]

theorem stopB_some (s charset : List Nat) (limit pos j prv ch : Nat)
    (h1 : CharMetric.prev s (retreatB s pos j) = some prv)
    (h2 : decodeCharAt s prv = some ch) :
    stopB s charset limit pos j
      = (!(charset.contains ch) || decide (prv < limit)) := by
  unfold stopB
  rw [h1]
  show (match decodeCharAt s prv with
    | none => true
    | some ch => !(charset.contains ch) || decide (prv < limit))
      = (!(charset.contains ch) || decide (prv < limit))
  rw [h2]

theorem skipBwdLoop_succ (charset : List Nat) (limit : Nat)
    (c : Cursor) (count f : Nat) :
    skipBwdLoop charset limit c count (f + 1)
      = match Cursor.get_lprev_char c with
        | (none, c1) => (count, c1)
        | (some ch, c1) =>
          if charset.contains ch = false then (count, (Cursor.mnext_char c1).2)
          else if c1.pos < limit then (count, (Cursor.mnext_char c1).2)
          else skipBwdLoop charset limit c1 (count + 1) f := rfl

theorem skipBwdLoop_some (charset : List Nat) (limit : Nat)
    (c c1 : Cursor) (ch count f : Nat)
    (h : Cursor.get_lprev_char c = (some ch, c1)) :
    skipBwdLoop charset limit c count (f + 1)
      = if charset.contains ch = false then (count, (Cursor.mnext_char c1).2)
        else if c1.pos < limit then (count, (Cursor.mnext_char c1).2)
        else skipBwdLoop charset limit c1 (count + 1) f := by
  rw [skipBwdLoop_succ, h]

theorem skipBwdLoop_none (charset : List Nat) (limit : Nat)
    (c c1 : Cursor) (count f : Nat)
    (h : Cursor.get_lprev_char c = (none, c1)) :
    skipBwdLoop charset limit c count (f + 1) = (count, c1) := by
  rw [skipBwdLoop_succ, h]

theorem skipBwdLoop_spec (s charset : List Nat) (limit pos : Nat)
    (hv : validUtf8 s = true) :
    ∀ (fuel j : Nat),
      retreatB s pos j + 1 ≤ fuel →
      is_char_boundary s (retreatB s pos j) = true →
      (∀ i, i < j → stopB s charset limit pos i = false) →
      ∃ jf, skipBwdLoop charset limit ⟨s, retreatB s pos j⟩ j fuel
          = (jf, ⟨s, retreatB s pos jf⟩) ∧
        stopB s charset limit pos jf = true ∧
        ∀ i, i < jf → stopB s charset limit pos i = false := by
  intro fuel
  induction fuel with
  | zero =>
    intro j hfuel hb hinv
    exact absurd hfuel (by omega)
  | succ f ih =>
    intro j hfuel hb hinv
    by_cases hj0 : retreatB s pos j = 0
    · refine ⟨j, ?_, ?_, hinv⟩
      · rw [hj0]
        rw [skipBwdLoop_none charset limit _ _ j f (get_lprev_char_bof s)]
      · apply stopB_bof
        unfold CharMetric.prev
        rw [if_pos hj0]
    · obtain ⟨q, ch, hprev, hdec, hqlen⟩ :=
        valid_prev_step s.length s (retreatB s pos j) (le_refl _) hv hb
          (by omega)
      have hq1 : retreatB s pos (j + 1) = q := by
        show (CharMetric.prev s (retreatB s pos j)).getD 0 = q
        rw [hprev]
        rfl
      obtain ⟨hbq, hqle2, hqint⟩ := decode_char_facts s q ch hdec
      obtain ⟨hprevq, hnextq⟩ := decode_prev_next s q ch hdec
      have hnextq2 : CharMetric.next s q = some (retreatB s pos j) := by
        rw [hnextq, hqlen]
      have hgl : Cursor.get_lprev_char ⟨s, retreatB s pos j⟩
          = (some ch, ⟨s, q⟩) :=
        get_lprev_char_some s _ q ch hprev hdec
      have hq_lt : q < retreatB s pos j := by
        have := len_utf8_pos (s.getD q 0)
        omega
      by_cases hmem : charset.contains ch = true
      · have hmemn : ¬ charset.contains ch = false := by
          rw [hmem]
          simp
        by_cases hqlim : q < limit
        · refine ⟨j, ?_, ?_, hinv⟩
          · rw [skipBwdLoop_some charset limit _ _ ch j f hgl]
            rw [if_neg hmemn]
            have hcond : (⟨s, q⟩ : Cursor).pos < limit := hqlim
            rw [if_pos hcond]
            rw [mnext_char_snd s q _ hnextq2]
          · rw [stopB_some s charset limit pos j q ch hprev hdec, hmem]
            simp [hqlim]
        · have hnotstop : stopB s charset limit pos j = false := by
            rw [stopB_some s charset limit pos j q ch hprev hdec, hmem]
            simp [hqlim]
          have hinv1 : ∀ i, i < j + 1 → stopB s charset limit pos i = false := by
            intro i hi
            rcases Nat.lt_or_ge i j with hij | hij
            · exact hinv i hij
            · have : i = j := by omega
              subst this
              exact hnotstop
          have hb1 : is_char_boundary s (retreatB s pos (j + 1)) = true := by
            rw [hq1]
            exact hbq
          have hf1 : retreatB s pos (j + 1) + 1 ≤ f := by
            rw [hq1]
            omega
          obtain ⟨jf, hloop, hstop, hinvf⟩ := ih (j + 1) hf1 hb1 hinv1
          refine ⟨jf, ?_, hstop, hinvf⟩
          rw [skipBwdLoop_some charset limit _ _ ch j f hgl]
          rw [if_neg hmemn]
          have hcond : ¬ (⟨s, q⟩ : Cursor).pos < limit := hqlim
          rw [if_neg hcond]
          rw [hq1] at hloop
          exact hloop
      · have hmemf : charset.contains ch = false := by
          cases hcc : charset.contains ch with
          | true => exact absurd hcc hmem
          | false => rfl
        refine ⟨j, ?_, ?_, hinv⟩
        · rw [skipBwdLoop_some charset limit _ _ ch j f hgl]
          rw [if_pos hmemf]
          rw [mnext_char_snd s q _ hnextq2]
        · rw [stopB_some s charset limit pos j q ch hprev hdec, hmemf]
          rfl

/-- C7 (corrected): `skip_chars_forward(charset, limit)` consumes characters
of `charset` from the cursor position, stopping at the buffer end, at the
first non-member character, or once the consumed-character count plus the
entry offset exceeds the limit (the check is `count + pos > limit` on the
char count, not a position comparison, so the cursor can end beyond the
limit offset), and returns the number of characters consumed;
`skip_chars_backward(charset, limit)` consumes members backward, stopping
at offset 0, after a character not in the set, or once the previous
character starts below the limit, never leaving the cursor below the limit;
both counts are natural numbers, hence non-negative.  `stopF`/`stopB` are
the exact loop stop conditions, `advanceF`/`retreatB` the offsets reached
after `j` character steps. -/
theorem skip_chars_spec (s charset : List Nat) (pos : Nat)
    (limit : Option Nat)
    (hv : validUtf8 s = true) (hb : is_char_boundary s pos = true) :
    (limit.getD s.length ≤ pos →
      skip_chars_forward ⟨s, pos⟩ charset limit = (0, ⟨s, pos⟩)) ∧
    (pos < limit.getD s.length →
      ∃ jf, skip_chars_forward ⟨s, pos⟩ charset limit
          = (jf, ⟨s, advanceF s pos jf⟩) ∧
        stopF s charset pos (limit.getD s.length) jf = true ∧
        ∀ i, i < jf → stopF s charset pos (limit.getD s.length) i = false) ∧
    (pos ≤ limit.getD 0 →
      skip_chars_backward ⟨s, pos⟩ charset limit = (0, ⟨s, pos⟩)) ∧
    (limit.getD 0 < pos →
      ∃ jf, skip_chars_backward ⟨s, pos⟩ charset limit
          = (jf, ⟨s, retreatB s pos jf⟩) ∧
        stopB s charset (limit.getD 0) pos jf = true ∧
        (∀ i, i < jf → stopB s charset (limit.getD 0) pos i = false) ∧
        limit.getD 0 ≤ retreatB s pos jf) := by
  have hple := boundary_le s pos hb
  refine ⟨?_, ?_, ?_, ?_⟩
  · intro h
    show (if pos ≥ limit.getD s.length then ((0 : Nat), (⟨s, pos⟩ : Cursor))
      else skipFwdLoop charset pos (limit.getD s.length) ⟨s, pos⟩ 0
        (s.length + 1)) = (0, ⟨s, pos⟩)
    rw [if_pos h]
  · intro h
    obtain ⟨jf, hloop, hstop, hinv⟩ :=
      skipFwdLoop_spec s charset pos (limit.getD s.length) (s.length + 1) 0
        (by omega) (fun i hi => absurd hi (by omega))
    refine ⟨jf, ?_, hstop, hinv⟩
    show (if pos ≥ limit.getD s.length then ((0 : Nat), (⟨s, pos⟩ : Cursor))
      else skipFwdLoop charset pos (limit.getD s.length) ⟨s, pos⟩ 0
        (s.length + 1)) = (jf, ⟨s, advanceF s pos jf⟩)
    rw [if_neg (by omega)]
    exact hloop
  · intro h
    show (if pos ≤ limit.getD 0 then ((0 : Nat), (⟨s, pos⟩ : Cursor))
      else skipBwdLoop charset (limit.getD 0) ⟨s, pos⟩ 0 (s.length + 1))
      = (0, ⟨s, pos⟩)
    rw [if_pos h]
  · intro h
    obtain ⟨jf, hloop, hstop, hinvf⟩ :=
      skipBwdLoop_spec s charset (limit.getD 0) pos hv (s.length + 1) 0
        (by show pos + 1 ≤ s.length + 1; omega) hb
        (fun i hi => absurd hi (by omega))
    have hge : limit.getD 0 ≤ retreatB s pos jf := by
      cases jf with
      | zero => exact Nat.le_of_lt h
      | succ k =>
        have hsk := hinvf k (by omega)
        unfold stopB at hsk
        split at hsk
        · cases hsk
        · next prv hprv =>
          split at hsk
          · cases hsk
          · next ch hch =>
            rw [Bool.or_eq_false_iff] at hsk
            obtain ⟨h1, h2⟩ := hsk
            have hre : retreatB s pos (k + 1) = prv := by
              show (CharMetric.prev s (retreatB s pos k)).getD 0 = prv
              rw [hprv]
              rfl
            rw [hre]
            have := of_decide_eq_false h2
            omega
    refine ⟨jf, ?_, hstop, hinvf, hge⟩
    show (if pos ≤ limit.getD 0 then ((0 : Nat), (⟨s, pos⟩ : Cursor))
      else skipBwdLoop charset (limit.getD 0) ⟨s, pos⟩ 0 (s.length + 1))
      = (jf, ⟨s, retreatB s pos jf⟩)
    rw [if_neg (by omega)]
    exact hloop

/-- C7 counterexample to the original claim: on buffer `"  k\t **hello"`
with charset `"* k\t"` and `limit = Some 2`, `skip_chars_forward` returns
count 3 with the cursor at offset 3 — beyond the limit offset 2, because the
loop's check is `count + pos > limit` on the consumed-character count, not a
cursor-position bound. -/
theorem skip_chars_forward_limit_cex :
    skip_chars_forward ⟨OrgStr "  k\t **hello", 0⟩ (OrgStr "* k\t") (some 2)
      = (3, ⟨OrgStr "  k\t **hello", 3⟩) ∧ 2 < 3 := by
  constructor
  · decide
  · decide

/-- Witness instantiating `skip_chars_spec` on the buffer `"  k\t **hello"`
at offset 0 with charset `"* k\t"` and `limit = Some 2`, with both
hypotheses discharged by evaluation. -/
theorem skip_chars_spec_witness :
    ((some 2 : Option Nat).getD (OrgStr "  k\t **hello").length ≤ 0 →
      skip_chars_forward ⟨OrgStr "  k\t **hello", 0⟩ (OrgStr "* k\t") (some 2)
        = (0, ⟨OrgStr "  k\t **hello", 0⟩)) ∧
    (0 < (some 2 : Option Nat).getD (OrgStr "  k\t **hello").length →
      ∃ jf, skip_chars_forward ⟨OrgStr "  k\t **hello", 0⟩ (OrgStr "* k\t")
          (some 2)
          = (jf, ⟨OrgStr "  k\t **hello",
              advanceF (OrgStr "  k\t **hello") 0 jf⟩) ∧
        stopF (OrgStr "  k\t **hello") (OrgStr "* k\t") 0
          ((some 2 : Option Nat).getD (OrgStr "  k\t **hello").length) jf
          = true ∧
        ∀ i, i < jf →
          stopF (OrgStr "  k\t **hello") (OrgStr "* k\t") 0
            ((some 2 : Option Nat).getD (OrgStr "  k\t **hello").length) i
            = false) ∧
    ((0 : Nat) ≤ (some 2 : Option Nat).getD 0 →
      skip_chars_backward ⟨OrgStr "  k\t **hello", 0⟩ (OrgStr "* k\t") (some 2)
        = (0, ⟨OrgStr "  k\t **hello", 0⟩)) ∧
    ((some 2 : Option Nat).getD 0 < 0 →
      ∃ jf, skip_chars_backward ⟨OrgStr "  k\t **hello", 0⟩ (OrgStr "* k\t")
          (some 2)
          = (jf, ⟨OrgStr "  k\t **hello",
              retreatB (OrgStr "  k\t **hello") 0 jf⟩) ∧
        stopB (OrgStr "  k\t **hello") (OrgStr "* k\t")
          ((some 2 : Option Nat).getD 0) 0 jf = true ∧
        (∀ i, i < jf →
          stopB (OrgStr "  k\t **hello") (OrgStr "* k\t")
            ((some 2 : Option Nat).getD 0) 0 i = false) ∧
        (some 2 : Option Nat).getD 0 ≤ retreatB (OrgStr "  k\t **hello") 0 jf) :=
  skip_chars_spec (OrgStr "  k\t **hello") (OrgStr "* k\t") 0 (some 2)
    (by decide) (by decide)

end OrgRs
